import Mathlib

/-!
Verification of the shortcut_bot command-ingestion pipeline.

The development shallowly embeds the Python sources:

* `file_utils.py` — `get_line_count`, `update_shortcuts_safely` (the safe writer);
* `agent.py` — `format_command_with_llm` (its file-system and transport effects),
  `_process_command_logic` (the ingestion workflow), `process_new_command`;
* `sync_cloud_to_local.py` / `sync_local_to_cloud.py` — the remote sync adapter;
* `json_validator.py` — `validate_json` (syntactic validation of the store file).

Modelling conventions:

* Files are values of `FS` (contents of `shortcuts.json` and `new_command.txt`,
  `none` = absent).  Reading a file that raises in Python is modelled with
  `Except PyError`; an `Except.error` result models an uncaught Python exception
  propagating out of the function.
* The LLM transport and the remote blob store are oracles: the text the OpenAI
  call would return (`none` models the caught HTTP/unexpected-error path that
  makes `format_command_with_llm` return `None`), the remote GET response, and
  the two `click.confirm` answers are parameters of the embedded functions.
* Python `json.loads` / `json.dumps(..., indent=2)` are embedded over the `Json`
  type below.  JSON numbers are restricted to integers (the claims under
  verification involve no floating-point data), Python strings are modelled by
  Lean `String` (so lone surrogates are not representable), and `\n` is the only
  line terminator considered by the line-counting functions (the only texts whose
  line counts the code compares are `json.dumps` outputs, which contain no other
  terminator).  Deviations are noted where they occur.
-/

/-! ## Python string primitives -/

/-- Whitespace skipped by Python's `json` scanner: space, tab, newline, carriage return. -/
def isJsonWs (c : Char) : Bool := c = ' ' || c = '\t' || c = '\n' || c = '\r'

/-- ASCII whitespace stripped by Python's `str.strip()` (Unicode whitespace not modelled). -/
def isPyWs (c : Char) : Bool := isJsonWs c || c = '\x0b' || c = '\x0c'

def pyStripList (l : List Char) : List Char :=
  ((l.dropWhile isPyWs).reverse.dropWhile isPyWs).reverse

/-- Python `str.strip()` with no argument. -/
def pyStrip (s : String) : String := String.mk (pyStripList s.data)

/-- Number of lines of a text: the common value of `len(s.splitlines())` and of
`len(f.readlines())` on a file holding `s`, for text whose only line terminator
is `\n`. -/
def lineCount (s : String) : Nat :=
  if s.data.isEmpty then 0
  else s.data.count '\n' + (if s.data.getLast? = some '\n' then 0 else 1)

/-! ## JSON values

`Json` models the values Python's `json` module moves between text and memory:
`dict`s keep their insertion order, so an object is an ordered list of members.
A mutual inductive (rather than nested `List`s) keeps every function over it
structurally recursive, hence kernel-reducible. -/

mutual
/-- A JSON value as loaded by Python's `json` module (numbers restricted to integers). -/
inductive Json where
  | null : Json
  | bool : Bool → Json
  | num : Int → Json
  | str : String → Json
  | arr : JElems → Json
  | obj : JMembers → Json

/-- The elements of a JSON array, in order. -/
inductive JElems where
  | nil : JElems
  | cons : Json → JElems → JElems

/-- The members of a JSON object, in insertion order. -/
inductive JMembers where
  | nil : JMembers
  | cons : String → Json → JMembers → JMembers
end

mutual
def Json.beq : Json → Json → Bool
  | .null, .null => true
  | .bool a, .bool b => a = b
  | .num a, .num b => a = b
  | .str a, .str b => a = b
  | .arr a, .arr b => JElems.beq a b
  | .obj a, .obj b => JMembers.beq a b
  | _, _ => false

def JElems.beq : JElems → JElems → Bool
  | .nil, .nil => true
  | .cons x xs, .cons y ys => Json.beq x y && JElems.beq xs ys
  | _, _ => false

def JMembers.beq : JMembers → JMembers → Bool
  | .nil, .nil => true
  | .cons k v xs, .cons k2 v2 ys => k = k2 && Json.beq v v2 && JMembers.beq xs ys
  | _, _ => false
end

mutual
theorem Json.beq_iff_eq : ∀ a b : Json, Json.beq a b = true ↔ a = b
  | .null, .null => by simp [Json.beq]
  | .bool _, .bool _ => by simp [Json.beq]
  | .num _, .num _ => by simp [Json.beq]
  | .str _, .str _ => by simp [Json.beq]
  | .arr x, .arr y => by simp [Json.beq, JElems.beqElems_iff_eq x y]
  | .obj x, .obj y => by simp [Json.beq, JMembers.beqMembers_iff_eq x y]
  | .null, .bool _ | .null, .num _ | .null, .str _ | .null, .arr _ | .null, .obj _
  | .bool _, .null | .bool _, .num _ | .bool _, .str _ | .bool _, .arr _ | .bool _, .obj _
  | .num _, .null | .num _, .bool _ | .num _, .str _ | .num _, .arr _ | .num _, .obj _
  | .str _, .null | .str _, .bool _ | .str _, .num _ | .str _, .arr _ | .str _, .obj _
  | .arr _, .null | .arr _, .bool _ | .arr _, .num _ | .arr _, .str _ | .arr _, .obj _
  | .obj _, .null | .obj _, .bool _ | .obj _, .num _ | .obj _, .str _ | .obj _, .arr _ => by
    simp [Json.beq]

theorem JElems.beqElems_iff_eq : ∀ a b : JElems, JElems.beq a b = true ↔ a = b
  | .nil, .nil => by simp [JElems.beq]
  | .cons x xs, .cons y ys => by
    simp [JElems.beq, Json.beq_iff_eq x y, JElems.beqElems_iff_eq xs ys]
  | .nil, .cons _ _ => by simp [JElems.beq]
  | .cons _ _, .nil => by simp [JElems.beq]

theorem JMembers.beqMembers_iff_eq : ∀ a b : JMembers, JMembers.beq a b = true ↔ a = b
  | .nil, .nil => by simp [JMembers.beq]
  | .cons k v xs, .cons k2 v2 ys => by
    simp [JMembers.beq, Json.beq_iff_eq v v2, JMembers.beqMembers_iff_eq xs ys, and_assoc]
  | .nil, .cons _ _ _ => by simp [JMembers.beq]
  | .cons _ _ _, .nil => by simp [JMembers.beq]
end

instance : DecidableEq Json := fun a b => decidable_of_iff _ (Json.beq_iff_eq a b)

instance : DecidableEq JElems := fun a b => decidable_of_iff _ (JElems.beqElems_iff_eq a b)

instance : DecidableEq JMembers := fun a b => decidable_of_iff _ (JMembers.beqMembers_iff_eq a b)

/-! ## Python dict and truthiness operations used by the sources -/

/-- Key lookup in a JSON object (Python dict indexing / `.get`; keys are unique
in any dict built by `json.loads` or by the workflow). -/
def JMembers.lookup : JMembers → String → Option Json
  | .nil, _ => none
  | .cons k v t, key => if k = key then some v else t.lookup key

/-- Python `key in dict`. -/
def JMembers.containsKey (m : JMembers) (key : String) : Bool := (m.lookup key).isSome

/-- Python dict assignment `d[key] = v`: replaces the value in place if the key
exists, otherwise appends the key at the end of the insertion order. -/
def JMembers.setKey : JMembers → String → Json → JMembers
  | .nil, key, v => .cons key v .nil
  | .cons k w t, key, v => if k = key then .cons k v t else .cons k w (t.setKey key v)

/-- The dict comprehension `{k: v for k, v in d.items() if k != key}`. -/
def JMembers.eraseKey : JMembers → String → JMembers
  | .nil, _ => .nil
  | .cons k v t, key => if k = key then t.eraseKey key else .cons k v (t.eraseKey key)

def JElems.append : JElems → JElems → JElems
  | .nil, l => l
  | .cons h t, l => .cons h (t.append l)

/-- Python `list.append` (as the resulting list value). -/
def JElems.push (l : JElems) (j : Json) : JElems := l.append (.cons j .nil)

/-- Python truthiness of a JSON value (`if x:`): `None`, `False`, `0`, `""`,
`[]` and `{}` are falsy, everything else truthy. -/
def Json.truthy : Json → Bool
  | .null => false
  | .bool b => b
  | .num n => !(n = 0)
  | .str s => !(s = "")
  | .arr .nil => false
  | .arr (.cons _ _) => true
  | .obj .nil => false
  | .obj (.cons _ _ _) => true

mutual
/-- Well-formedness of a value as Python's `json` module ever produces it:
every object has pairwise-distinct keys.  `json.loads` output and anything
built from it by the workflow satisfies this. -/
def Json.wfb : Json → Bool
  | .null => true
  | .bool _ => true
  | .num _ => true
  | .str _ => true
  | .arr l => JElems.wfb l
  | .obj m => JMembers.wfb m

def JElems.wfb : JElems → Bool
  | .nil => true
  | .cons h t => Json.wfb h && JElems.wfb t

def JMembers.wfb : JMembers → Bool
  | .nil => true
  | .cons k v t => !(t.containsKey k) && Json.wfb v && JMembers.wfb t
end

/-! ## Serialization: Python `json.dumps(value, indent=2)`

`json.dumps` with `indent=2` and default separators/`ensure_ascii`: objects and
arrays break one item per line with two extra spaces per nesting level, the key
separator is `": "`, the item separator `","` followed by the newline, and every
character outside printable ASCII is `\uXXXX`-escaped (astral characters as a
surrogate pair). -/

def digitChar : Nat → Char
  | 0 => '0' | 1 => '1' | 2 => '2' | 3 => '3' | 4 => '4'
  | 5 => '5' | 6 => '6' | 7 => '7' | 8 => '8' | 9 => '9'
  | _ => '0'

def natToCharsAux : Nat → Nat → List Char
  | 0, _ => []
  | fuel+1, n => if n < 10 then [digitChar n] else natToCharsAux fuel (n / 10) ++ [digitChar (n % 10)]

/-- Decimal digits of a natural number, as Python prints it. -/
def natToChars (n : Nat) : List Char := natToCharsAux (n + 1) n

/-- Python's decimal rendering of an integer. -/
def intChars : Int → List Char
  | .ofNat m => natToChars m
  | .negSucc m => '-' :: natToChars (m + 1)

def hexDigitChar : Nat → Char
  | 0 => '0' | 1 => '1' | 2 => '2' | 3 => '3' | 4 => '4'
  | 5 => '5' | 6 => '6' | 7 => '7' | 8 => '8' | 9 => '9'
  | 10 => 'a' | 11 => 'b' | 12 => 'c' | 13 => 'd' | 14 => 'e' | 15 => 'f'
  | _ => '0'

def hex4 (n : Nat) : List Char :=
  [hexDigitChar (n / 4096 % 16), hexDigitChar (n / 256 % 16),
   hexDigitChar (n / 16 % 16), hexDigitChar (n % 16)]

/-- `json.dumps` escaping of one string character (`ensure_ascii=True`): the
two-character escapes for quote, backslash and the five named controls, `\uXXXX`
for other controls and all non-ASCII, a surrogate pair for astral characters,
and printable ASCII verbatim. -/
def escapeChar (c : Char) : List Char :=
  if c = '"' then ['\\', '"']
  else if c = '\\' then ['\\', '\\']
  else if c = '\n' then ['\\', 'n']
  else if c = '\r' then ['\\', 'r']
  else if c = '\t' then ['\\', 't']
  else if c = '\x08' then ['\\', 'b']
  else if c = '\x0c' then ['\\', 'f']
  else if c.toNat < 0x20 then '\\' :: 'u' :: hex4 c.toNat
  else if c.toNat ≤ 0x7e then [c]
  else if c.toNat < 0x10000 then '\\' :: 'u' :: hex4 c.toNat
  else
    ('\\' :: 'u' :: hex4 (0xd800 + (c.toNat - 0x10000) / 0x400)) ++
    ('\\' :: 'u' :: hex4 (0xdc00 + (c.toNat - 0x10000) % 0x400))

def escChars : List Char → List Char
  | [] => []
  | c :: t => escapeChar c ++ escChars t

/-- A JSON string literal for `s`, quotes included. -/
def escString (s : String) : List Char := '"' :: (escChars s.data ++ ['"'])

def spaces : Nat → List Char
  | 0 => []
  | n+1 => ' ' :: spaces n

mutual
/-- The characters `json.dumps(v, indent=2)` produces for `v` nested at level `lvl`. -/
def Json.dumpsChars : Nat → Json → List Char
  | _, .null => ['n', 'u', 'l', 'l']
  | _, .bool true => ['t', 'r', 'u', 'e']
  | _, .bool false => ['f', 'a', 'l', 's', 'e']
  | _, .num n => intChars n
  | _, .str s => escString s
  | _, .arr .nil => ['[', ']']
  | lvl, .arr (.cons h t) =>
      '[' :: '\n' :: (spaces (2 * (lvl + 1)) ++
        (Json.dumpsChars (lvl + 1) h ++
          (JElems.dumpsTail (lvl + 1) t ++ '\n' :: (spaces (2 * lvl) ++ [']']))))
  | _, .obj .nil => ['{', '}']
  | lvl, .obj (.cons k v t) =>
      '{' :: '\n' :: (spaces (2 * (lvl + 1)) ++
        (escString k ++ ':' :: ' ' :: (Json.dumpsChars (lvl + 1) v ++
          (JMembers.dumpsTail (lvl + 1) t ++ '\n' :: (spaces (2 * lvl) ++ ['}'])))))

/-- The item separator and the remaining elements, after the first. -/
def JElems.dumpsTail : Nat → JElems → List Char
  | _, .nil => []
  | lvl, .cons h t =>
      ',' :: '\n' :: (spaces (2 * lvl) ++ (Json.dumpsChars lvl h ++ JElems.dumpsTail lvl t))

/-- The item separator and the remaining members, after the first. -/
def JMembers.dumpsTail : Nat → JMembers → List Char
  | _, .nil => []
  | lvl, .cons k v t =>
      ',' :: '\n' :: (spaces (2 * lvl) ++
        (escString k ++ ':' :: ' ' :: (Json.dumpsChars lvl v ++ JMembers.dumpsTail lvl t)))
end

/-- Python `json.dumps(v, indent=2)` (also the text `json.dump(v, f, indent=2)` writes). -/
def Json.dumps (v : Json) : String := String.mk (Json.dumpsChars 0 v)

/-! ## Parsing: Python `json.loads`

Recursive descent with the grammar `json.loads` accepts, restricted as noted in
the header: numbers are integer-only (no fraction, exponent, `NaN` or
`Infinity`), and a `\uXXXX` escape denoting a lone surrogate is rejected rather
than decoded (Lean strings cannot hold one; `json.dumps` output never contains
one).  Duplicate keys collapse through repeated dict assignment, as in Python.
Nesting depth is bounded by a fuel parameter; `Json.parse` passes more fuel than
any input can consume, so the bound is never the reason a parse fails. -/

def skipWs (l : List Char) : List Char := l.dropWhile isJsonWs

def digitVal (c : Char) : Option Nat :=
  if '0' ≤ c ∧ c ≤ '9' then some (c.toNat - 48) else none

def hexVal : Char → Option Nat
  | 'a' => some 10 | 'b' => some 11 | 'c' => some 12
  | 'd' => some 13 | 'e' => some 14 | 'f' => some 15
  | 'A' => some 10 | 'B' => some 11 | 'C' => some 12
  | 'D' => some 13 | 'E' => some 14 | 'F' => some 15
  | c => digitVal c

def isDigitChar (c : Char) : Bool := (digitVal c).isSome

def digitsVal (l : List Char) : Nat := l.foldl (fun a c => a * 10 + ((digitVal c).getD 0)) 0

/-- Parse a JSON natural-number literal: a maximal digit run, rejecting a
leading zero followed by more digits (as Python does). -/
def parseNat (l : List Char) : Option (Nat × List Char) :=
  match l.takeWhile isDigitChar, l.dropWhile isDigitChar with
  | [], _ => none
  | d :: ds, rest =>
    if d = '0' ∧ ds ≠ [] then none
    else some (digitsVal (d :: ds), rest)

/-- Read exactly four hex digits, returning their value and the rest. -/
def hex4Val : List Char → Option (Nat × List Char)
  | a :: b :: c :: d :: t =>
    match hexVal a, hexVal b, hexVal c, hexVal d with
    | some ha, some hb, some hc, some hd => some (ha * 4096 + hb * 256 + hc * 16 + hd, t)
    | _, _, _, _ => none
  | _ => none

/-- Decode a `\uXXXX` escape (the text after `\u`): a high surrogate must be
followed by a `\uXXXX` low surrogate, the pair decoding to one astral
character, as Python's decoder does; a lone surrogate is rejected (Python
would keep it, but Lean strings cannot hold one, and `json.dumps` output
never contains one). -/
def escUnicodePair (n : Nat) (t4 : List Char) : Option (Char × List Char) :=
  match hex4Val t4 with
  | some (m, t5) =>
    if 0xdc00 ≤ m ∧ m < 0xe000 then
      some (Char.ofNat (0x10000 + (n - 0xd800) * 0x400 + (m - 0xdc00)), t5)
    else none
  | none => none

def escUnicodeCont (n : Nat) (t3 : List Char) : Option (Char × List Char) :=
  if n < 0xd800 then some (Char.ofNat n, t3)
  else if n < 0xdc00 then
    match t3 with
    | '\\' :: 'u' :: t4 => escUnicodePair n t4
    | _ => none
  else if n < 0xe000 then none
  else some (Char.ofNat n, t3)

def escUnicode (t : List Char) : Option (Char × List Char) :=
  match hex4Val t with
  | none => none
  | some (n, t3) => escUnicodeCont n t3

/-- Decode one backslash escape (the text after the backslash). -/
def escDecode : List Char → Option (Char × List Char)
  | [] => none
  | e :: t2 =>
    if e = '"' then some ('"', t2)
    else if e = '\\' then some ('\\', t2)
    else if e = '/' then some ('/', t2)
    else if e = 'b' then some ('\x08', t2)
    else if e = 'f' then some ('\x0c', t2)
    else if e = 'n' then some ('\n', t2)
    else if e = 'r' then some ('\r', t2)
    else if e = 't' then some ('\t', t2)
    else if e = 'u' then escUnicode t2
    else none

/-- Parse the body of a JSON string literal (the opening quote already
consumed), returning the decoded characters and the text after the closing
quote.  Raw control characters are rejected (`json.loads` strict mode).  The
fuel only bounds the recursion; `parseStringBody` passes more than any input
can consume. -/
def parseStringBodyAux : Nat → List Char → Option (List Char × List Char)
  | 0, _ => none
  | fuel+1, l =>
    match l with
    | [] => none
    | c :: t =>
      if c = '"' then some ([], t)
      else if c = '\\' then
        match escDecode t with
        | some (ch, t2) => (parseStringBodyAux fuel t2).map (fun p => (ch :: p.1, p.2))
        | none => none
      else if c.toNat < 0x20 then none
      else (parseStringBodyAux fuel t).map (fun p => (c :: p.1, p.2))

def parseStringBody (l : List Char) : Option (List Char × List Char) :=
  parseStringBodyAux (l.length + 1) l

/-- Python dict construction from parsed members in textual order: repeated
assignment, so a duplicate key keeps its first position and last value. -/
def buildMembersAux : JMembers → JMembers → JMembers
  | acc, .nil => acc
  | acc, .cons k v t => buildMembersAux (acc.setKey k v) t

def buildMembers (raw : JMembers) : JMembers := buildMembersAux .nil raw

mutual
/-- Parse one JSON value (leading whitespace allowed), returning it and the
unconsumed text. -/
def parseValue : Nat → List Char → Option (Json × List Char)
  | 0, _ => none
  | fuel+1, l =>
    match skipWs l with
    | [] => none
    | c :: t =>
      if c = '{' then
        match skipWs t with
        | '}' :: t2 => some (.obj .nil, t2)
        | t2 =>
          match parseMembers fuel t2 with
          | some (ms, r) => some (.obj (buildMembers ms), r)
          | none => none
      else if c = '[' then
        match skipWs t with
        | ']' :: t2 => some (.arr .nil, t2)
        | t2 =>
          match parseElems fuel t2 with
          | some (es, r) => some (.arr es, r)
          | none => none
      else if c = '"' then
        (parseStringBody t).map (fun p => (.str (String.mk p.1), p.2))
      else if c = 't' then
        match t with
        | 'r' :: 'u' :: 'e' :: t2 => some (.bool true, t2)
        | _ => none
      else if c = 'f' then
        match t with
        | 'a' :: 'l' :: 's' :: 'e' :: t2 => some (.bool false, t2)
        | _ => none
      else if c = 'n' then
        match t with
        | 'u' :: 'l' :: 'l' :: t2 => some (.null, t2)
        | _ => none
      else if c = '-' then
        (parseNat t).map (fun p => (.num (-(p.1 : Int)), p.2))
      else
        match digitVal c with
        | some _ => (parseNat (c :: t)).map (fun p => (.num (p.1 : Int), p.2))
        | none => none

/-- Parse the members of an object from the first key on (whitespace before the
key already skipped), through the closing brace; the raw member list is in
textual order. -/
def parseMembers : Nat → List Char → Option (JMembers × List Char)
  | 0, _ => none
  | fuel+1, l =>
    match l with
    | '"' :: t =>
      match parseStringBody t with
      | some (kcs, t2) =>
        match skipWs t2 with
        | ':' :: t3 =>
          match parseValue fuel t3 with
          | some (v, t4) =>
            match skipWs t4 with
            | ',' :: t5 =>
              match parseMembers fuel (skipWs t5) with
              | some (ms, r) => some (.cons (String.mk kcs) v ms, r)
              | none => none
            | '}' :: t5 => some (.cons (String.mk kcs) v .nil, t5)
            | _ => none
          | none => none
        | _ => none
      | none => none
    | _ => none

/-- Parse the elements of an array from the first element on, through the
closing bracket. -/
def parseElems : Nat → List Char → Option (JElems × List Char)
  | 0, _ => none
  | fuel+1, l =>
    match parseValue fuel l with
    | some (v, t) =>
      match skipWs t with
      | ',' :: t2 =>
        match parseElems fuel (skipWs t2) with
        | some (es, r) => some (.cons v es, r)
        | none => none
      | ']' :: t2 => some (.cons v .nil, t2)
      | _ => none
    | none => none
end

/-- Python `json.loads`: one JSON document, surrounding whitespace allowed,
nothing after it. -/
def Json.parse (s : String) : Option Json :=
  match parseValue (s.data.length + 1) s.data with
  | some (v, rest) => if (skipWs rest).isEmpty then some v else none
  | none => none

/-! ## The file system and error model

`FS` holds the two files the core touches.  `Except.error` models an uncaught
Python exception propagating out of the embedded function. -/

structure FS where
  shortcutsFile : Option String
  newCommandFile : Option String
deriving DecidableEq

inductive PyError where
  | fileNotFound : PyError
  | jsonDecodeError : PyError
  | attributeError : PyError
  | typeError : PyError
  | keyError : PyError
deriving DecidableEq

deriving instance DecidableEq for Except

/-! ## file_utils.py -/

/-- `file_utils.get_line_count`: `len(f.readlines())`, `0` when the file is absent. -/
def get_line_count (file : Option String) : Nat :=
  match file with
  | none => 0
  | some content => lineCount content

/-- `file_utils.update_shortcuts_safely`: refuse (returning `False` and leaving
the file as it was) when the new content has strictly fewer lines than the
file, otherwise overwrite the file with exactly the new content and return
`True`.  The result pairs the returned boolean with the file's contents after
the call (`len(updated_content.splitlines())` equals `lineCount` for the
`\n`-terminated text in play). -/
def update_shortcuts_safely (file : Option String) (updated_content : String) :
    Bool × Option String :=
  if lineCount updated_content < get_line_count file then (false, file)
  else (true, some updated_content)

/-! ## json_validator.py -/

/-- `json_validator.validate_json`, reduced to the boolean the agent checks
(`"True" in stdout`): does the file exist and parse as JSON.  (The script's
diagnostic messages never contain the text `True`.) -/
def validate_json (file : Option String) : Bool :=
  match file with
  | none => false
  | some content => (Json.parse content).isSome

/-! ## agent.py -/

/-- `json.load(open(path))`: `FileNotFoundError` when absent, `JSONDecodeError`
when the contents do not parse. -/
def jsonLoadFile (file : Option String) : Except PyError Json :=
  match file with
  | none => .error .fileNotFound
  | some content =>
    match Json.parse content with
    | none => .error .jsonDecodeError
    | some v => .ok v

/-- `agent.format_command_with_llm`: reads `shortcuts.json` for context (an
uncaught exception if it is absent or invalid), then performs the HTTP call.
`apiResponse` is the transport oracle: `some text` is the model's reply,
`none` the caught HTTP-error/unexpected-error path that returns `None`. -/
def format_command_with_llm (fs : FS) (apiResponse : Option String) :
    Except PyError (Option String) :=
  match fs.shortcutsFile with
  | none => .error .fileNotFound
  | some content =>
    match Json.parse content with
    | none => .error .jsonDecodeError
    | some _ => .ok apiResponse

def patPrefixOf : List Char → List Char → Bool
  | [], _ => true
  | _ :: _, [] => false
  | p :: q, c :: t => p = c && patPrefixOf q t

/-- Python `s.startswith(pat)` over character lists. -/
def listStartsWith (l pat : List Char) : Bool := patPrefixOf pat l

/-- Lines 281-282 of `agent.py`: if the stripped response starts with the
seven characters of a ```` ```json ```` fence opener, replace the text by its
stripped form with the first 7 and last 3 characters cut (`.strip()[7:-3].strip()`),
with no check that the cut suffix is a closing fence; otherwise the original
text is parsed unchanged. -/
def stripFencedWrapper (resp : String) : String :=
  if listStartsWith (pyStrip resp).data (("```json").data) then
    pyStrip (String.mk ((((pyStrip resp).data).drop 7).take (((pyStrip resp).data).length - 10)))
  else resp

/-- The duplicate scan of lines 363-381: iterate the category's entries and
compare each entry's `command` field (`.get`, so `None` when absent, an
`AttributeError` when an entry is not a dict) with the candidate's. -/
def findDuplicate : JElems → Json → Except PyError Bool
  | .nil, _ => .ok false
  | .cons e t, proposed =>
    match e with
    | .obj em =>
      if (em.lookup "command").getD .null = proposed then .ok true
      else findDuplicate t proposed
    | _ => .error .attributeError

/-- The terminal states of one ingestion cycle that returns normally
(§4.2 of the spec names the abort reasons). -/
inductive Outcome where
  | emptyInput : Outcome
  | formatterFailure : Outcome
  | malformedOutput : Outcome
  | missingCategory : Outcome
  | userRejectedCategory : Outcome
  | duplicateCommand : Outcome
  | userRejectedCandidate : Outcome
  | writeGuardViolation : Outcome
  | postWriteCorruption : Outcome
  | committed : Outcome
deriving DecidableEq

/-- Lines 420-531 of `agent.py`, after approval: build
`{k: v for k, v in formatted_command.items() if k != "category"}`, append it to
`shortcuts[category]`, serialize the whole store with `indent=2`, hand it to
the safe writer (whose refusal aborts with the file untouched), then re-read
and re-validate the file.  The pre-update line-count snapshot is only printed,
so it is not modelled; the post-write validation failure path returns with the
file already overwritten.  `sync_local_to_cloud` runs after a successful
validation and does not change local files. -/
def commitCandidate (fcm : JMembers) (cat : String) (store2 : JMembers)
    (entries : JElems) (fs : FS) : Outcome × FS :=
  match update_shortcuts_safely fs.shortcutsFile
      (Json.dumps (.obj (store2.setKey cat (.arr (entries.push (.obj (fcm.eraseKey "category"))))))) with
  | (false, _) => (.writeGuardViolation, fs)
  | (true, newFile) =>
    if validate_json newFile then (.committed, { fs with shortcutsFile := newFile })
    else (.postWriteCorruption, { fs with shortcutsFile := newFile })

/-- The run of one embedded function: either a normal return or an uncaught
exception, paired with the file system when the run ends.  (Each raise site in
`_process_command_logic` is reached before any file is written, so the paired
state at an exception is the state at entry.) -/
abbrev PyRun (α : Type) : Type := Except PyError α × FS

/-- `agent._process_command_logic`.  Oracles: `apiResponse` (the LLM transport,
see `format_command_with_llm`), `confirmCreateCategory` and `approveCommand`
(the two `click.confirm` answers).  Deviations, each on a path no claim's
hypotheses reach: a candidate category that is truthy but not a string is
modelled as a `TypeError` (Python would raise only for an unhashable one and
would otherwise use the non-string key), and iterating a store value that is
not a list is modelled as a `TypeError` (Python would iterate a dict's keys or
a string's characters and then raise `AttributeError` on `.get`). -/
def _process_command_logic (raw_command : String) (apiResponse : Option String)
    (confirmCreateCategory approveCommand : Bool) (fs : FS) : PyRun Outcome :=
  if raw_command = "" then (.ok .emptyInput, fs)
  else
    match format_command_with_llm fs apiResponse with
    | .error e => (.error e, fs)
    | .ok none => (.ok .formatterFailure, fs)
    | .ok (some resp) =>
      match Json.parse (stripFencedWrapper resp) with
      | none => (.ok .malformedOutput, fs)
      | some formatted_command =>
        match jsonLoadFile fs.shortcutsFile with
        | .error e => (.error e, fs)
        | .ok shortcutsVal =>
          match formatted_command with
          | .obj fcm =>
            if !((fcm.lookup "category").getD .null).truthy then (.ok .missingCategory, fs)
            else
              match shortcutsVal with
              | .obj store =>
                match (fcm.lookup "category").getD .null with
                | .str cat =>
                  if !store.containsKey cat && !confirmCreateCategory then
                    (.ok .userRejectedCategory, fs)
                  else
                    match (if ((if store.containsKey cat then store
                                else store.setKey cat (.arr .nil))).containsKey cat then
                            match (if store.containsKey cat then store
                                else store.setKey cat (.arr .nil)).lookup cat with
                            | some (.arr entries) =>
                              findDuplicate entries ((fcm.lookup "command").getD .null)
                            | some _ => .error .typeError
                            | none => .ok false
                          else (.ok false : Except PyError Bool)) with
                    | .error e => (.error e, fs)
                    | .ok true => (.ok .duplicateCommand, fs)
                    | .ok false =>
                      if !approveCommand then (.ok .userRejectedCandidate, fs)
                      else
                        match (if store.containsKey cat then store
                            else store.setKey cat (.arr .nil)).lookup cat with
                        | some (.arr entries) =>
                          ((.ok (commitCandidate fcm cat
                              (if store.containsKey cat then store
                                else store.setKey cat (.arr .nil)) entries fs).1 : Except PyError Outcome),
                           (commitCandidate fcm cat
                              (if store.containsKey cat then store
                                else store.setKey cat (.arr .nil)) entries fs).2)
                        | some _ => (.error .attributeError, fs)
                        | none => (.error .keyError, fs)
                | _ => (.error .typeError, fs)
              | _ => (.error .typeError, fs)
          | _ => (.error .attributeError, fs)

/-- `agent.process_new_command`: read and strip the pending file, run one
cycle, then truncate the pending file to the empty string.  The truncation is
not inside a `try/finally`: an exception propagating out of the cycle skips
it. -/
def process_new_command (apiResponse : Option String)
    (confirmCreateCategory approveCommand : Bool) (fs : FS) : PyRun Outcome :=
  match fs.newCommandFile with
  | none => (.error .fileNotFound, fs)
  | some content =>
    match _process_command_logic (pyStrip content) apiResponse
        confirmCreateCategory approveCommand fs with
    | (.error e, fs2) => (.error e, fs2)
    | (.ok out, fs2) => (.ok out, { fs2 with newCommandFile := some "" })

/-! ## sync_cloud_to_local.py and sync_local_to_cloud.py -/

/-- The outcome of the authenticated GET in `sync_cloud_to_local`:
a `requests` error (or bad HTTP status), a body `response.json()` cannot
decode, or a decoded JSON body. -/
inductive RemoteGet where
  | requestError : RemoteGet
  | invalidBody : RemoteGet
  | okBody : Json → RemoteGet

/-- `sync_cloud_to_local.sync_cloud_to_local`: on a decoded body, take
`response.json().get('record')` and, `if cloud_data:`, overwrite
`shortcuts.json` with `json.dump(cloud_data, f, indent=2)`; on a missing or
falsy record print an error and leave the file untouched; every request,
decode or attribute error is caught and leaves the file untouched. -/
def sync_cloud_to_local (fs : FS) (response : RemoteGet) : FS :=
  match response with
  | .requestError => fs
  | .invalidBody => fs
  | .okBody body =>
    match body with
    | .obj members =>
      let cloud_data := (members.lookup "record").getD .null
      if cloud_data.truthy then { fs with shortcutsFile := some (Json.dumps cloud_data) }
      else fs
    | _ => fs

/-- `sync_local_to_cloud.sync_local_to_cloud`: read and parse
`shortcuts.json` (returning before any upload when absent or invalid) and PUT
the parsed value, which replaces the remote record wholesale.  The result is
the uploaded payload, `none` when the function returns before the PUT. -/
def sync_local_to_cloud (fs : FS) : Option Json :=
  match fs.shortcutsFile with
  | none => none
  | some content => Json.parse content

/-- A pull immediately followed by a push (spec §8 round-trip property): the
remote GET succeeds with body `{"record": record}`, and the push's PUT (when
reached) replaces the remote record with the returned payload. -/
def pullThenPush (fs : FS) (record : Json) : Option Json :=
  sync_local_to_cloud (sync_cloud_to_local fs (.okBody (.obj (.cons "record" record .nil))))

/-! ## Helper notions used in claim statements -/

/-- Every entry of a category's list is a JSON object (a `ShortcutEntry` in
the spec's data model; the duplicate scan's `.get` requires this). -/
def JElems.allObjEntries : JElems → Bool
  | .nil => true
  | .cons (.obj _) t => t.allObjEntries
  | .cons _ _ => false

/-- Some entry's `command` field (`.get`, so `null` when absent) equals `p`. -/
def JElems.hasCommand : JElems → Json → Bool
  | .nil, _ => false
  | .cons (.obj em) t, p => (((em.lookup "command").getD .null) = p) || t.hasCommand p
  | .cons _ t, p => t.hasCommand p

theorem findDuplicate_spec : ∀ (entries : JElems) (p : Json),
    entries.allObjEntries = true → findDuplicate entries p = .ok (entries.hasCommand p)
  | .nil, _, _ => rfl
  | .cons (.obj em) t, p, h => by
    have ih := findDuplicate_spec t p (by simpa [JElems.allObjEntries] using h)
    by_cases hc : ((em.lookup "command").getD .null) = p <;>
      simp [findDuplicate, JElems.hasCommand, hc, ih]
  | .cons .null _, _, h => by simp [JElems.allObjEntries] at h
  | .cons (.bool _) _, _, h => by simp [JElems.allObjEntries] at h
  | .cons (.num _) _, _, h => by simp [JElems.allObjEntries] at h
  | .cons (.str _) _, _, h => by simp [JElems.allObjEntries] at h
  | .cons (.arr _) _, _, h => by simp [JElems.allObjEntries] at h

/-! ## C2: the shrink guard of the safe writer -/

/-- C2.  For every file state and new-content string: when the new content has
strictly fewer lines than the existing file (0 lines when absent), the safe
write returns failure and leaves the file's contents unchanged; otherwise it
overwrites the file with exactly the new content and returns success. -/
theorem update_shortcuts_safely_shrink_guard (file : Option String) (updated_content : String) :
    (lineCount updated_content < get_line_count file →
      update_shortcuts_safely file updated_content = (false, file)) ∧
    (¬ lineCount updated_content < get_line_count file →
      update_shortcuts_safely file updated_content = (true, some updated_content)) := by
  unfold update_shortcuts_safely
  constructor <;> intro h <;> simp [h]

theorem update_shortcuts_safely_shrink_guard_witness :
    (lineCount "\x7b\x7d" < get_line_count (some "\x7b\n  \"GIT\": []\n\x7d") ∧
      update_shortcuts_safely (some "\x7b\n  \"GIT\": []\n\x7d") "\x7b\x7d" =
        (false, some "\x7b\n  \"GIT\": []\n\x7d")) ∧
    (¬ lineCount "\x7b\n  \"GIT\": []\n\x7d" < get_line_count (some "\x7b\x7d") ∧
      update_shortcuts_safely (some "\x7b\x7d") "\x7b\n  \"GIT\": []\n\x7d" =
        (true, some "\x7b\n  \"GIT\": []\n\x7d")) :=
  ⟨⟨by decide, (update_shortcuts_safely_shrink_guard (some "\x7b\n  \"GIT\": []\n\x7d") "\x7b\x7d").1 (by decide)⟩,
   ⟨by decide, (update_shortcuts_safely_shrink_guard (some "\x7b\x7d") "\x7b\n  \"GIT\": []\n\x7d").2 (by decide)⟩⟩

/-! ## Inversion and shape lemmas for the workflow -/

theorem jsonLoadFile_ok_inversion (file : Option String) (v : Json)
    (h : jsonLoadFile file = .ok v) :
    ∃ content, file = some content ∧ Json.parse content = some v := by
  unfold jsonLoadFile at h
  cases hfile : file with
  | none => rw [hfile] at h; exact absurd h (by simp)
  | some content =>
    rw [hfile] at h
    cases hparse : Json.parse content with
    | none => simp [hparse] at h
    | some v2 =>
      simp [hparse] at h
      exact ⟨content, rfl, by rw [hparse, h]⟩

theorem format_ok_inversion (fs : FS) (api : Option String) (r : Option String)
    (h : format_command_with_llm fs api = .ok r) :
    ∃ content v, fs.shortcutsFile = some content ∧ Json.parse content = some v ∧ r = api := by
  unfold format_command_with_llm at h
  cases hfile : fs.shortcutsFile with
  | none => rw [hfile] at h; exact absurd h (by simp)
  | some content =>
    rw [hfile] at h
    cases hparse : Json.parse content with
    | none => simp [hparse] at h
    | some v =>
      simp [hparse] at h
      exact ⟨content, v, rfl, hparse, h.symm⟩

/-- Every run of the workflow either leaves the file system exactly as it was,
or reaches the commit step, which happens only with the final approval given,
with the category-creation confirmation given whenever the candidate's category
was not already a store key, and with all the intermediate steps (formatter
success, JSON parse, store load, category extraction) succeeded. -/
theorem plc_shape (raw : String) (api : Option String) (cc ap : Bool) (fs : FS) :
    (_process_command_logic raw api cc ap fs).2 = fs ∨
    (ap = true ∧
      ∃ resp content store fcm cat entries,
        api = some resp ∧
        fs.shortcutsFile = some content ∧
        Json.parse content = some (.obj store) ∧
        Json.parse (stripFencedWrapper resp) = some (.obj fcm) ∧
        (fcm.lookup "category").getD .null = .str cat ∧
        (cc = false → store.containsKey cat = true) ∧
        (if store.containsKey cat then store else store.setKey cat (.arr .nil)).lookup cat
          = some (.arr entries) ∧
        _process_command_logic raw api cc ap fs =
          (.ok (commitCandidate fcm cat
              (if store.containsKey cat then store else store.setKey cat (.arr .nil))
              entries fs).1,
           (commitCandidate fcm cat
              (if store.containsKey cat then store else store.setKey cat (.arr .nil))
              entries fs).2)) := by
  unfold _process_command_logic
  split
  all_goals try (left; rfl)
  split
  all_goals try (left; rfl)
  rename_i resp hfmt
  split
  all_goals try (left; rfl)
  rename_i fc hfc
  split
  all_goals try (left; rfl)
  rename_i sv hload
  split
  all_goals try (left; rfl)
  rename_i fcm
  split
  all_goals try (left; rfl)
  split
  all_goals try (left; rfl)
  rename_i store
  split
  all_goals try (left; rfl)
  rename_i cat hcat
  split
  all_goals try (left; rfl)
  rename_i hcreate
  split
  all_goals try (left; rfl)
  split
  all_goals try (left; rfl)
  rename_i hap
  split
  all_goals try (left; rfl)
  rename_i entries hentries
  right
  obtain ⟨content, v, hfile, hparse, hrv⟩ :=
    format_ok_inversion fs api (some resp) hfmt
  obtain ⟨content2, hfile2, hparse2⟩ :=
    jsonLoadFile_ok_inversion fs.shortcutsFile (.obj store) hload
  refine ⟨by simpa using hap, resp, content2, store, fcm, cat, entries,
    hrv.symm, hfile2, hparse2, hfc, hcat, ?_, hentries, rfl⟩
  intro hcc
  rcases Bool.eq_false_or_eq_true (store.containsKey cat) with hck | hck
  · exact hck
  · exact absurd (by simp [hck, hcc]) hcreate

/-- The commit step either hits the shrink guard (file untouched) or
overwrites the file with the serialization of the store holding the appended
entry, ending committed or post-write-corrupt. -/
theorem commitCandidate_cases (fcm : JMembers) (cat : String) (store2 : JMembers)
    (entries : JElems) (fs : FS) :
    commitCandidate fcm cat store2 entries fs = (.writeGuardViolation, fs) ∨
    ((commitCandidate fcm cat store2 entries fs).2 =
        { fs with shortcutsFile := some (Json.dumps (.obj
            (store2.setKey cat (.arr (entries.push (.obj (fcm.eraseKey "category"))))))) } ∧
      ((commitCandidate fcm cat store2 entries fs).1 = .committed ∨
       (commitCandidate fcm cat store2 entries fs).1 = .postWriteCorruption)) := by
  unfold commitCandidate
  cases h : update_shortcuts_safely fs.shortcutsFile
      (Json.dumps (.obj (store2.setKey cat
        (.arr (entries.push (.obj (fcm.eraseKey "category"))))))) with
  | mk ok newFile =>
    unfold update_shortcuts_safely at h
    split at h
    · injection h with h1 h2
      rw [← h1, ← h2]
      left; rfl
    · injection h with h1 h2
      rw [← h1, ← h2]
      by_cases hv : validate_json (some (Json.dumps (.obj (store2.setKey cat
          (.arr (entries.push (.obj (fcm.eraseKey "category")))))))) = true
      · right; simp [hv]
      · right; simp [hv]

/-! ## Fixture texts used by witnesses and counterexamples -/

/-- The store `{"GIT": [{"command": "git status"}]}` in its canonical
`indent=2` serialization. -/
def gitStoreText : String :=
  "\x7b\n  \"GIT\": [\n    \x7b\n      \"command\": \"git status\"\n    \x7d\n  ]\n\x7d"

/-- The store `{"GIT": []}` in its canonical `indent=2` serialization. -/
def gitStoreEmptyText : String := "\x7b\n  \"GIT\": []\n\x7d"

/-- A formatter reply proposing `git status` into category `GIT`. -/
def gitCandidateText : String :=
  "\x7b\"category\": \"GIT\", \"command\": \"git status\"\x7d"

/-! ## C3: abort paths leave the store untouched -/

/-- C3.  Every cycle that returns one of the seven pre-commit abort outcomes —
empty input, formatter failure, malformed LLM output, missing `category`,
user declining a new category, duplicate command, user declining the
candidate — leaves the file system (in particular the on-disk store file)
byte-for-byte unchanged; and whenever the store file does change, the final
approval was given and, when the category-creation confirmation was refused,
the candidate's category was already a key of the loaded store (so that prompt
never arose): all mutation happens after both confirmations, never before. -/
theorem abort_paths_leave_store_untouched (raw : String) (api : Option String)
    (cc ap : Bool) (fs : FS) (out : Outcome) (fs2 : FS)
    (h : _process_command_logic raw api cc ap fs = (.ok out, fs2)) :
    ((out = .emptyInput ∨ out = .formatterFailure ∨ out = .malformedOutput ∨
      out = .missingCategory ∨ out = .userRejectedCategory ∨
      out = .duplicateCommand ∨ out = .userRejectedCandidate) → fs2 = fs) ∧
    (fs2.shortcutsFile ≠ fs.shortcutsFile →
      ap = true ∧
      (cc = false →
        ∃ resp content store fcm cat,
          api = some resp ∧ fs.shortcutsFile = some content ∧
          Json.parse content = some (.obj store) ∧
          Json.parse (stripFencedWrapper resp) = some (.obj fcm) ∧
          (fcm.lookup "category").getD .null = .str cat ∧
          store.containsKey cat = true)) := by
  rcases plc_shape raw api cc ap fs with h1 | ⟨hap, resp, content, store, fcm, cat, entries,
      hapi, hfile, hstore, hfc, hcat, hcc, hentries, heqr⟩
  · rw [h] at h1
    exact ⟨fun _ => h1, fun hch => absurd (congrArg FS.shortcutsFile h1) hch⟩
  · rw [heqr] at h
    injection h with h1 h2
    injection h1 with h1
    constructor
    · intro habort
      rcases commitCandidate_cases fcm cat
          (if store.containsKey cat then store else store.setKey cat (.arr .nil))
          entries fs with hwg | ⟨hfs2, hout⟩
      · rw [hwg] at h2
        exact h2.symm
      · rw [h1] at hout
        rcases hout with ho | ho <;> subst ho <;>
          rcases habort with h3 | h3 | h3 | h3 | h3 | h3 | h3 <;>
          exact absurd h3 (by decide)
    · intro _
      exact ⟨hap, fun hccf =>
        ⟨resp, content, store, fcm, cat, hapi, hfile, hstore, hfc, hcat, hcc hccf⟩⟩

theorem abort_paths_leave_store_untouched_witness :
    (⟨some gitStoreText, some ""⟩ : FS) = ⟨some gitStoreText, some ""⟩ :=
  (abort_paths_leave_store_untouched "git status" (some gitCandidateText) false true
      ⟨some gitStoreText, some ""⟩ .duplicateCommand ⟨some gitStoreText, some ""⟩
      (by decide)).1 (by decide)

/-! ## C4: exact-match duplicate guard -/

/-- C4.  Whenever the candidate's resolved category is already a store key
whose entry list contains an entry whose `command` field is exactly
string-equal (case-sensitive, no fuzzy matching) to the candidate's `command`
string, the workflow returns the duplicate-command abort with the file system
unchanged, whatever the two confirmation answers would have been — so the
abort happens before the approval prompt and before any write, and a store
already holding the command keeps exactly its one entry for it. -/
theorem duplicate_command_aborts (raw resp content : String)
    (confirmCreate approve : Bool) (fs : FS)
    (fcm store : JMembers) (entries : JElems) (cat c : String)
    (hraw : raw ≠ "")
    (hfile : fs.shortcutsFile = some content)
    (hstore : Json.parse content = some (.obj store))
    (hresp : Json.parse (stripFencedWrapper resp) = some (.obj fcm))
    (hcat : fcm.lookup "category" = some (.str cat))
    (hcatne : cat ≠ "")
    (hentries : store.lookup cat = some (.arr entries))
    (hobj : entries.allObjEntries = true)
    (hcmd : fcm.lookup "command" = some (.str c))
    (hdup : entries.hasCommand (.str c) = true) :
    _process_command_logic raw (some resp) confirmCreate approve fs =
      (.ok .duplicateCommand, fs) := by
  have hck : store.containsKey cat = true := by simp [JMembers.containsKey, hentries]
  unfold _process_command_logic format_command_with_llm jsonLoadFile
  rw [hfile]
  simp only [hstore, hresp, hcat, if_neg hraw]
  simp only [Option.getD_some, Json.truthy, hcatne, hck]
  simp [findDuplicate_spec entries _ hobj, hcmd, hentries, hdup, hck]

theorem duplicate_command_aborts_witness :
    _process_command_logic "git status" (some gitCandidateText) false true
        ⟨some gitStoreText, some ""⟩ =
      (.ok .duplicateCommand, ⟨some gitStoreText, some ""⟩) :=
  duplicate_command_aborts "git status" gitCandidateText gitStoreText false true
    ⟨some gitStoreText, some ""⟩
    (.cons "category" (.str "GIT") (.cons "command" (.str "git status") .nil))
    (.cons "GIT" (.arr (.cons (.obj (.cons "command" (.str "git status") .nil)) .nil)) .nil)
    (.cons (.obj (.cons "command" (.str "git status") .nil)) .nil)
    "GIT" "git status"
    (by decide) (by decide) (by decide) (by decide) (by decide) (by decide) (by decide)
    (by decide) (by decide) (by decide)

/-! ## C5: clearing of the pending-input file -/

/-- C5 (amended).  A run of `process_new_command` that completes without an
uncaught exception always ends with the pending-input file truncated to the
empty string, whatever the cycle's outcome; a run that raises (for example
because the store file is absent or corrupt, making `json.load` fail inside
the formatter step) skips the clearing statement — it is not in a
`try/finally` — and leaves the whole file system, the pending file included,
unchanged. -/
theorem pending_file_cleared (api : Option String) (cc ap : Bool)
    (fs : FS) (out : Outcome) (fs2 : FS) :
    (process_new_command api cc ap fs = (.ok out, fs2) → fs2.newCommandFile = some "") ∧
    (∀ e : PyError, process_new_command api cc ap fs = (.error e, fs2) → fs2 = fs) := by
  cases hnc : fs.newCommandFile with
  | none =>
    have hdef : process_new_command api cc ap fs = (.error .fileNotFound, fs) := by
      unfold process_new_command
      rw [hnc]
    rw [hdef]
    constructor
    · intro h; injection h with h1 _; cases h1
    · intro e h; injection h with _ h2; exact h2.symm
  | some content =>
    have hdef : process_new_command api cc ap fs =
        (match _process_command_logic (pyStrip content) api cc ap fs with
          | (.error e, fs3) => ((.error e : Except PyError Outcome), fs3)
          | (.ok o, fs3) => (.ok o, { fs3 with newCommandFile := some "" })) := by
      unfold process_new_command
      rw [hnc]
    rw [hdef]
    cases hr : _process_command_logic (pyStrip content) api cc ap fs with
    | mk r fs3 =>
      cases r with
      | error e2 =>
        constructor
        · intro h; injection h with h1 _; cases h1
        · intro e h
          injection h with _ h2
          rcases plc_shape (pyStrip content) api cc ap fs with hs | ⟨_, _, _, _, _, _, _,
              _, _, _, _, _, _, _, heqr⟩
          · rw [hr] at hs
            exact h2 ▸ hs
          · rw [hr] at heqr
            injection heqr with hx _
            cases hx
      | ok o =>
        constructor
        · intro h
          injection h with _ h2
          rw [← h2]
        · intro e h; injection h with h1 _; cases h1

theorem pending_file_cleared_witness :
    (⟨some gitStoreText, some ""⟩ : FS).newCommandFile = some "" :=
  (pending_file_cleared (some gitCandidateText) false true
      ⟨some gitStoreText, some "git status"⟩ .duplicateCommand
      ⟨some gitStoreText, some ""⟩).1 (by decide)

/-- C5 counterexample.  With the store file holding the single byte `{` (not
valid JSON) and the pending file holding `ls -la`, the cycle raises
`JSONDecodeError` while the formatter reads the store for context; the
exception propagates out of `process_new_command` and the pending file still
holds `ls -la` — it is not cleared, although the claim requires clearing
regardless of outcome. -/
theorem pending_file_kept_on_corrupt_store :
    process_new_command (some gitCandidateText) true true ⟨some "\x7b", some "ls -la"⟩ =
      (.error .jsonDecodeError, ⟨some "\x7b", some "ls -la"⟩) ∧
    (some "ls -la" : Option String) ≠ some "" := ⟨by decide, by decide⟩

/-! ## C6: the pull operation -/

/-- C6 (amended).  A pull with a failed request or an undecodable body leaves
the file system untouched; a pull whose decoded body is a JSON object with a
truthy `record` overwrites the local store file with that record's `indent=2`
serialization; a body whose `record` is absent or falsy (null, false, 0, "",
empty array, empty object) reports an error and leaves the file untouched, as
does a body that is not an object (whose `.get` raises, caught by the broad
handler). -/
theorem sync_cloud_to_local_pull_spec (fs : FS) (body : Json) (ms : JMembers) :
    sync_cloud_to_local fs .requestError = fs ∧
    sync_cloud_to_local fs .invalidBody = fs ∧
    (((ms.lookup "record").getD .null).truthy = true →
      sync_cloud_to_local fs (.okBody (.obj ms)) =
        { fs with shortcutsFile := some (Json.dumps ((ms.lookup "record").getD .null)) }) ∧
    (((ms.lookup "record").getD .null).truthy = false →
      sync_cloud_to_local fs (.okBody (.obj ms)) = fs) ∧
    ((∀ ms2, body ≠ .obj ms2) → sync_cloud_to_local fs (.okBody body) = fs) := by
  refine ⟨rfl, rfl, ?_, ?_, ?_⟩
  · intro h; simp [sync_cloud_to_local, h]
  · intro h; simp [sync_cloud_to_local, h]
  · intro h
    cases body <;> first | rfl | exact absurd rfl (h _)

theorem sync_cloud_to_local_pull_spec_witness :
    sync_cloud_to_local ⟨some "x", none⟩
        (.okBody (.obj (.cons "record" (.obj (.cons "A" (.arr .nil) .nil)) .nil))) =
      { (⟨some "x", none⟩ : FS) with shortcutsFile := some (Json.dumps
          (((JMembers.cons "record" (.obj (.cons "A" (.arr .nil) .nil)) .nil).lookup
            "record").getD .null)) } ∧
    sync_cloud_to_local ⟨some "y", none⟩
        (.okBody (.obj (.cons "record" (.obj .nil) .nil))) = ⟨some "y", none⟩ ∧
    sync_cloud_to_local ⟨some "z", none⟩ (.okBody (.arr .nil)) = ⟨some "z", none⟩ :=
  ⟨(sync_cloud_to_local_pull_spec ⟨some "x", none⟩ (.arr .nil)
      (.cons "record" (.obj (.cons "A" (.arr .nil) .nil)) .nil)).2.2.1 (by decide),
   (sync_cloud_to_local_pull_spec ⟨some "y", none⟩ (.arr .nil)
      (.cons "record" (.obj .nil) .nil)).2.2.2.1 (by decide),
   (sync_cloud_to_local_pull_spec ⟨some "z", none⟩ (.arr .nil) .nil).2.2.2.2
      (fun ms2 h => Json.noConfusion h)⟩

/-- C6 counterexample.  A decoded body containing the record `{}` — present,
and a legitimate empty store — is treated as absent by the `if cloud_data:`
truthiness test: the local store file keeps its old text instead of being
overwritten with the record's content, so the claim's "if the remote response
contains a record, the local store file is overwritten" fails. -/
theorem sync_cloud_to_local_empty_record_counterexample :
    (JMembers.cons "record" (.obj .nil) .nil).lookup "record" = some (.obj .nil) ∧
    sync_cloud_to_local ⟨some "old", none⟩
        (.okBody (.obj (.cons "record" (.obj .nil) .nil))) = ⟨some "old", none⟩ ∧
    (some "old" : Option String) ≠ some (Json.dumps (.obj .nil)) :=
  ⟨rfl, rfl, by decide⟩

/-! ## C9: fence stripping -/

theorem listStartsWith_append : ∀ (p m : List Char), listStartsWith (p ++ m) p = true
  | [], _ => rfl
  | c :: t, m => by
    have ih := listStartsWith_append t m
    simp [listStartsWith, patPrefixOf] at ih ⊢
    exact ih

/-- C9.  Fence stripping applies exactly when the whitespace-stripped response
starts with the seven characters ```` ```json ````: in that case the parsed
text is the stripped response with exactly its first 7 and last 3 characters
removed (then stripped again), with no check that the removed suffix is a
closing fence and no fallback to the original text; otherwise the response is
parsed unchanged.  Consequently the response ```` ```json{"a": 1} ```` (no
closing fence), whose payload loses its last 3 characters, makes the cycle
abort as a JSON parse failure with the file system unchanged. -/
theorem fence_stripping (resp : String) :
    (∀ mid : List Char, (pyStrip resp).data = ("```json").data ++ mid →
      stripFencedWrapper resp = pyStrip (String.mk (mid.take (mid.length - 3)))) ∧
    (listStartsWith (pyStrip resp).data (("```json").data) = false →
      stripFencedWrapper resp = resp) ∧
    (stripFencedWrapper "```json\n\x7b\"a\": 1\x7d" = "\x7b\"a\":" ∧
     Json.parse "\x7b\"a\":" = none ∧
     _process_command_logic "ls" (some "```json\n\x7b\"a\": 1\x7d") true true
         ⟨some "\x7b\x7d", some ""⟩ =
       (.ok .malformedOutput, ⟨some "\x7b\x7d", some ""⟩)) := by
  refine ⟨?_, ?_, by decide, by decide, by decide⟩
  · intro mid hmid
    unfold stripFencedWrapper
    rw [hmid, listStartsWith_append]
    have h7 : (("```json").data).length = 7 := rfl
    have hdrop : (("```json").data ++ mid).drop 7 = mid := by
      rw [← h7]; exact List.drop_left _ _
    have hlen : (("```json").data ++ mid).length - 10 = mid.length - 3 := by
      simp [List.length_append, h7]
    rw [if_pos rfl, hdrop, hlen]
  · intro h
    unfold stripFencedWrapper
    simp [h]

theorem fence_stripping_witness :
    stripFencedWrapper "```json\nABCDE" =
      pyStrip (String.mk ((("\nABCDE").data).take ((("\nABCDE").data).length - 3))) ∧
    stripFencedWrapper "hello" = "hello" :=
  ⟨(fence_stripping "```json\nABCDE").1 (("\nABCDE").data) (by decide),
   (fence_stripping "hello").2.1 (by decide)⟩

/-! ## Round-trip: numbers -/

theorem takeWhile_append_all (p : Char → Bool) : ∀ (xs ys : List Char),
    (∀ x ∈ xs, p x = true) → (xs ++ ys).takeWhile p = xs ++ ys.takeWhile p
  | [], ys, _ => rfl
  | x :: xs, ys, h => by
    have hx := h x (by simp)
    have ih := takeWhile_append_all p xs ys (fun c hc => h c (by simp [hc]))
    simp [List.takeWhile_cons, hx, ih]

theorem dropWhile_append_all (p : Char → Bool) : ∀ (xs ys : List Char),
    (∀ x ∈ xs, p x = true) → (xs ++ ys).dropWhile p = ys.dropWhile p
  | [], ys, _ => rfl
  | x :: xs, ys, h => by
    have hx := h x (by simp)
    have ih := dropWhile_append_all p xs ys (fun c hc => h c (by simp [hc]))
    simp [List.dropWhile_cons, hx, ih]

theorem takeWhile_head_false (p : Char → Bool) (l : List Char)
    (h : ∀ c, l.head? = some c → p c = false) : l.takeWhile p = [] := by
  cases l with
  | nil => rfl
  | cons c t => simp [List.takeWhile_cons, h c rfl]

theorem dropWhile_head_false (p : Char → Bool) (l : List Char)
    (h : ∀ c, l.head? = some c → p c = false) : l.dropWhile p = l := by
  cases l with
  | nil => rfl
  | cons c t => simp [List.dropWhile_cons, h c rfl]

theorem isDigitChar_digitChar (d : Nat) : isDigitChar (digitChar d) = true := by
  unfold digitChar
  split <;> rfl

theorem digitVal_digitChar (d : Nat) (h : d < 10) : digitVal (digitChar d) = some d := by
  interval_cases d <;> rfl

theorem natToCharsAux_all_digits : ∀ (fuel n : Nat),
    ∀ c ∈ natToCharsAux fuel n, isDigitChar c = true
  | 0, _, c, hc => by simp [natToCharsAux] at hc
  | fuel+1, n, c, hc => by
    unfold natToCharsAux at hc
    split at hc
    · simp at hc
      rw [hc]; exact isDigitChar_digitChar n
    · rw [List.mem_append] at hc
      rcases hc with hc | hc
      · exact natToCharsAux_all_digits fuel (n / 10) c hc
      · simp at hc
        rw [hc]; exact isDigitChar_digitChar (n % 10)

theorem natToCharsAux_ne_nil (fuel n : Nat) (h : n < fuel) :
    natToCharsAux fuel n ≠ [] := by
  cases fuel with
  | zero => omega
  | succ fuel =>
    unfold natToCharsAux
    split
    · simp
    · simp

theorem digitsVal_natToCharsAux : ∀ (fuel n : Nat), n < fuel → ∀ acc : Nat,
    (natToCharsAux fuel n).foldl (fun a c => a * 10 + ((digitVal c).getD 0)) acc =
      acc * 10 ^ (natToCharsAux fuel n).length + n
  | 0, n, h, acc => by omega
  | fuel+1, n, h, acc => by
    unfold natToCharsAux
    split
    next hn =>
      simp [List.foldl, digitVal_digitChar n hn]
    next hn =>
      have hlt : n / 10 < fuel := by omega
      rw [List.foldl_append]
      rw [digitsVal_natToCharsAux fuel (n / 10) hlt acc]
      simp only [List.foldl, digitVal_digitChar (n % 10) (Nat.mod_lt n (by omega)),
        Option.getD_some, List.length_append, List.length_cons, List.length_nil]
      have hpow : 10 ^ ((natToCharsAux fuel (n / 10)).length + (0 + 1)) =
          10 ^ (natToCharsAux fuel (n / 10)).length * 10 := by
        simp [Nat.pow_succ]
      rw [hpow]
      have hmod := Nat.div_add_mod n 10
      ring_nf
      omega

theorem natToCharsAux_head_ne_zero : ∀ (fuel n : Nat), n < fuel → 1 ≤ n →
    ∀ c, (natToCharsAux fuel n).head? = some c → c ≠ '0'
  | 0, n, h, _, _, _ => by omega
  | fuel+1, n, h, h1, c, hc => by
    unfold natToCharsAux at hc
    split at hc
    next hn =>
      simp at hc
      interval_cases n <;> (rw [← hc]; decide)
    next hn =>
      have hne := natToCharsAux_ne_nil fuel (n / 10) (by omega)
      rw [List.head?_append_of_ne_nil _ hne] at hc
      exact natToCharsAux_head_ne_zero fuel (n / 10) (by omega) (by omega) c hc

theorem parseNat_natToChars (n : Nat) (rest : List Char)
    (hrest : ∀ c, rest.head? = some c → isDigitChar c = false) :
    parseNat (natToChars n ++ rest) = some (n, rest) := by
  have hall : ∀ c ∈ natToChars n, isDigitChar c = true :=
    natToCharsAux_all_digits (n + 1) n
  have htake : (natToChars n ++ rest).takeWhile isDigitChar = natToChars n := by
    rw [takeWhile_append_all _ _ _ hall, takeWhile_head_false _ _ hrest, List.append_nil]
  have hdrop : (natToChars n ++ rest).dropWhile isDigitChar = rest := by
    rw [dropWhile_append_all _ _ _ hall, dropWhile_head_false _ _ hrest]
  unfold parseNat
  rw [htake, hdrop]
  rcases Nat.eq_zero_or_pos n with hn | hn
  · subst hn
    rw [show natToChars 0 = ['0'] from rfl]
    simp [digitsVal, digitVal]
  · have hne : natToChars n ≠ [] := natToCharsAux_ne_nil (n + 1) n (by omega)
    cases hd : natToChars n with
    | nil => exact absurd hd hne
    | cons c t =>
      have hc0 : c ≠ '0' := by
        apply natToCharsAux_head_ne_zero (n + 1) n (by omega) hn
        show (natToChars n).head? = some c
        rw [hd]
        rfl
      have hval : digitsVal (natToChars n) = n := by
        have h0 := digitsVal_natToCharsAux (n + 1) n (by omega) 0
        simpa [digitsVal, natToChars] using h0
      rw [hd] at hval
      show (if c = '0' ∧ t ≠ [] then none else some (digitsVal (c :: t), rest)) =
        some (n, rest)
      rw [if_neg (fun hcon => hc0 hcon.1), hval]

/-! ## Round-trip: strings -/


theorem hexVal_hexDigitChar (d : Nat) (h : d < 16) : hexVal (hexDigitChar d) = some d := by
  interval_cases d <;> rfl

theorem char_toNat_valid (c : Char) :
    c.toNat < 0xd800 ∨ (0xe000 ≤ c.toNat ∧ c.toNat < 0x110000) := c.valid

theorem hex4Val_hex4 (n : Nat) (h : n < 0x10000) (rest : List Char) :
    hex4Val (hex4 n ++ rest) = some (n, rest) := by
  have hd1 : n / 4096 % 16 < 16 := Nat.mod_lt _ (by omega)
  have hd2 : n / 256 % 16 < 16 := Nat.mod_lt _ (by omega)
  have hd3 : n / 16 % 16 < 16 := Nat.mod_lt _ (by omega)
  have hd4 : n % 16 < 16 := Nat.mod_lt _ (by omega)
  simp only [hex4, List.cons_append, List.nil_append]
  rw [hex4Val]
  rw [hexVal_hexDigitChar _ hd1, hexVal_hexDigitChar _ hd2,
    hexVal_hexDigitChar _ hd3, hexVal_hexDigitChar _ hd4]
  show some (n / 4096 % 16 * 4096 + n / 256 % 16 * 256 + n / 16 % 16 * 16 + n % 16, rest) =
    some (n, rest)
  have hrec : n / 4096 % 16 * 4096 + n / 256 % 16 * 256 + n / 16 % 16 * 16 + n % 16 = n := by
    omega
  rw [hrec]

theorem escUnicode_hex4_low (n : Nat) (suffix : List Char)
    (hn : n < 0xd800) :
    escUnicode (hex4 n ++ suffix) = some (Char.ofNat n, suffix) := by
  unfold escUnicode
  rw [hex4Val_hex4 n (by omega) suffix]
  show escUnicodeCont n suffix = some (Char.ofNat n, suffix)
  unfold escUnicodeCont
  rw [if_pos hn]

theorem escUnicode_hex4_high (n : Nat) (suffix : List Char)
    (hn1 : 0xe000 ≤ n) (hn2 : n < 0x10000) :
    escUnicode (hex4 n ++ suffix) = some (Char.ofNat n, suffix) := by
  unfold escUnicode
  rw [hex4Val_hex4 n (by omega) suffix]
  show escUnicodeCont n suffix = some (Char.ofNat n, suffix)
  unfold escUnicodeCont
  rw [if_neg (by omega : ¬ n < 0xd800), if_neg (by omega : ¬ n < 0xdc00),
    if_neg (by omega : ¬ n < 0xe000)]

theorem escUnicodePair_hex4 (hi m : Nat) (suffix : List Char) (hm : m < 0x400) :
    escUnicodePair hi (hex4 (0xdc00 + m) ++ suffix) =
      some (Char.ofNat (0x10000 + (hi - 0xd800) * 0x400 + m), suffix) := by
  unfold escUnicodePair
  rw [hex4Val_hex4 (0xdc00 + m) (by omega) suffix]
  have h1 : (0xdc00 : Nat) ≤ 0xdc00 + m := by omega
  have h2 : 0xdc00 + m < 0xe000 := by omega
  show (if 0xdc00 ≤ 0xdc00 + m ∧ 0xdc00 + m < 0xe000 then
      some (Char.ofNat (0x10000 + (hi - 0xd800) * 0x400 + (0xdc00 + m - 0xdc00)), suffix)
    else none) = some (Char.ofNat (0x10000 + (hi - 0xd800) * 0x400 + m), suffix)
  rw [if_pos ⟨h1, h2⟩, Nat.add_sub_cancel_left]

theorem escDecode_u (l : List Char) : escDecode ('u' :: l) = escUnicode l := rfl

theorem escUnicode_surrogate_pair (m : Nat) (suffix : List Char) (hm : m < 0x100000) :
    escUnicode (hex4 (0xd800 + m / 0x400) ++ ('\\' :: 'u' :: (hex4 (0xdc00 + m % 0x400) ++ suffix))) =
      some (Char.ofNat (0x10000 + m), suffix) := by
  have hmod := Nat.mod_lt m (by omega : 0 < 0x400)
  unfold escUnicode
  rw [hex4Val_hex4 (0xd800 + m / 0x400) (by omega)]
  show escUnicodeCont (0xd800 + m / 0x400) ('\\' :: 'u' :: (hex4 (0xdc00 + m % 0x400) ++ suffix)) =
    some (Char.ofNat (0x10000 + m), suffix)
  unfold escUnicodeCont
  rw [if_neg (by omega : ¬ 0xd800 + m / 0x400 < 0xd800),
    if_pos (by omega : 0xd800 + m / 0x400 < 0xdc00)]
  show escUnicodePair (0xd800 + m / 0x400) (hex4 (0xdc00 + m % 0x400) ++ suffix) =
    some (Char.ofNat (0x10000 + m), suffix)
  rw [escUnicodePair_hex4 (0xd800 + m / 0x400) (m % 0x400) suffix hmod,
    Nat.add_sub_cancel_left]
  have hcomb : 0x10000 + m / 0x400 * 0x400 + m % 0x400 = 0x10000 + m := by omega
  rw [hcomb]

theorem escDecode_escapeChar (c : Char) (suffix : List Char)
    (h : ¬ (0x20 ≤ c.toNat ∧ c.toNat ≤ 0x7e ∧ c ≠ '"' ∧ c ≠ '\\')) :
    ∃ tail, escapeChar c = '\\' :: tail ∧ escDecode (tail ++ suffix) = some (c, suffix) := by
  unfold escapeChar
  by_cases h1 : c = '"'
  · subst h1; rw [if_pos rfl]; exact ⟨_, rfl, rfl⟩
  rw [if_neg h1]
  by_cases h2 : c = '\\'
  · subst h2; rw [if_pos rfl]; exact ⟨_, rfl, rfl⟩
  rw [if_neg h2]
  by_cases h3 : c = '\n'
  · subst h3; rw [if_pos rfl]; exact ⟨_, rfl, rfl⟩
  rw [if_neg h3]
  by_cases h4 : c = '\r'
  · subst h4; rw [if_pos rfl]; exact ⟨_, rfl, rfl⟩
  rw [if_neg h4]
  by_cases h5 : c = '\t'
  · subst h5; rw [if_pos rfl]; exact ⟨_, rfl, rfl⟩
  rw [if_neg h5]
  by_cases h6 : c = '\x08'
  · subst h6; rw [if_pos rfl]; exact ⟨_, rfl, rfl⟩
  rw [if_neg h6]
  by_cases h7 : c = '\x0c'
  · subst h7; rw [if_pos rfl]; exact ⟨_, rfl, rfl⟩
  rw [if_neg h7]
  by_cases h8 : c.toNat < 0x20
  · rw [if_pos h8]
    refine ⟨_, rfl, ?_⟩
    show escUnicode (hex4 c.toNat ++ suffix) = some (c, suffix)
    rw [escUnicode_hex4_low c.toNat suffix (by omega), Char.ofNat_toNat]
  rw [if_neg h8]
  by_cases h9 : c.toNat ≤ 0x7e
  · exact absurd ⟨by omega, h9, h1, h2⟩ h
  rw [if_neg h9]
  by_cases h10 : c.toNat < 0x10000
  · rw [if_pos h10]
    refine ⟨_, rfl, ?_⟩
    show escUnicode (hex4 c.toNat ++ suffix) = some (c, suffix)
    rcases char_toNat_valid c with hv | hv
    · rw [escUnicode_hex4_low c.toNat suffix hv, Char.ofNat_toNat]
    · rw [escUnicode_hex4_high c.toNat suffix hv.1 h10, Char.ofNat_toNat]
  · rw [if_neg h10]
    have hlt : c.toNat < 0x110000 := by
      rcases char_toNat_valid c with hv | hv <;> omega
    refine ⟨'u' :: (hex4 (0xd800 + (c.toNat - 0x10000) / 0x400) ++
      ('\\' :: 'u' :: hex4 (0xdc00 + (c.toNat - 0x10000) % 0x400))), by
        simp [List.cons_append], ?_⟩
    rw [List.cons_append, escDecode_u, List.append_assoc]
    rw [show '\\' :: 'u' :: hex4 (0xdc00 + (c.toNat - 0x10000) % 0x400) ++ suffix =
      '\\' :: 'u' :: (hex4 (0xdc00 + (c.toNat - 0x10000) % 0x400) ++ suffix) from rfl]
    rw [escUnicode_surrogate_pair (c.toNat - 0x10000) suffix (by omega)]
    rw [show 0x10000 + (c.toNat - 0x10000) = c.toNat by omega, Char.ofNat_toNat]

theorem escapeChar_literal (c : Char)
    (h : 0x20 ≤ c.toNat ∧ c.toNat ≤ 0x7e ∧ c ≠ '"' ∧ c ≠ '\\') :
    escapeChar c = [c] := by
  obtain ⟨hl, hu, hq, hb⟩ := h
  unfold escapeChar
  rw [if_neg hq, if_neg hb,
    if_neg (by intro he; rw [he] at hl; exact absurd hl (by decide)),
    if_neg (by intro he; rw [he] at hl; exact absurd hl (by decide)),
    if_neg (by intro he; rw [he] at hl; exact absurd hl (by decide)),
    if_neg (by intro he; rw [he] at hl; exact absurd hl (by decide)),
    if_neg (by intro he; rw [he] at hl; exact absurd hl (by decide)),
    if_neg (by omega : ¬ c.toNat < 0x20), if_pos hu]

theorem parseStringBodyAux_escChars : ∀ (l : List Char) (fuel : Nat) (rest : List Char),
    l.length < fuel →
    parseStringBodyAux fuel (escChars l ++ ('"' :: rest)) = some (l, rest)
  | [], fuel, rest, hf => by
    cases fuel with
    | zero => omega
    | succ fuel =>
      show parseStringBodyAux (fuel + 1) ('"' :: rest) = some ([], rest)
      rw [parseStringBodyAux]
      rw [if_pos rfl]
  | c :: t, fuel, rest, hf => by
    cases fuel with
    | zero => omega
    | succ fuel =>
      have ih := parseStringBodyAux_escChars t fuel rest (by
        simp only [List.length_cons] at hf; omega)
      by_cases hlit : 0x20 ≤ c.toNat ∧ c.toNat ≤ 0x7e ∧ c ≠ '"' ∧ c ≠ '\\'
      · rw [show escChars (c :: t) = escapeChar c ++ escChars t from rfl,
          escapeChar_literal c hlit]
        rw [List.cons_append, List.nil_append, List.cons_append]
        rw [parseStringBodyAux]
        rw [if_neg hlit.2.2.1, if_neg hlit.2.2.2, if_neg (by omega : ¬ c.toNat < 0x20)]
        rw [ih]
        rfl
      · obtain ⟨tail, htail, hdec⟩ := escDecode_escapeChar c (escChars t ++ ('"' :: rest)) hlit
        rw [show escChars (c :: t) = escapeChar c ++ escChars t from rfl, htail]
        simp only [List.cons_append, List.append_assoc]
        rw [parseStringBodyAux]
        rw [if_neg (by decide : ¬ ('\\' : Char) = '"'), if_pos (rfl : ('\\' : Char) = '\\')]
        rw [hdec]
        show Option.map (fun p => (c :: p.1, p.2))
          (parseStringBodyAux fuel (escChars t ++ ('"' :: rest))) = some (c :: t, rest)
        rw [ih]
        rfl

theorem escChars_length_le : ∀ l : List Char, l.length ≤ (escChars l).length
  | [] => by simp [escChars]
  | c :: t => by
    have ih := escChars_length_le t
    have hc : 1 ≤ (escapeChar c).length := by
      unfold escapeChar
      repeat' split
      all_goals simp
    simp only [escChars, List.length_cons, List.length_append]
    omega

theorem parseStringBody_escChars (l rest : List Char) :
    parseStringBody (escChars l ++ ('"' :: rest)) = some (l, rest) := by
  unfold parseStringBody
  apply parseStringBodyAux_escChars
  have h1 := escChars_length_le l
  simp only [List.length_append, List.length_cons]
  omega

/-! ## Round-trip: parser reduction lemmas and sizes -/


/-! Definitions: the collapse `json.loads ∘ json.dumps` performs (duplicate keys
dropped through dict assignment), and a size measure bounding the parser fuel. -/

mutual
/-- What `json.loads` returns on `json.dumps v`: every object's member list is
rebuilt by repeated dict assignment, so duplicate keys collapse (first
position, last value); on well-formed values this is the identity. -/
def Json.collapse : Json → Json
  | .null => .null
  | .bool b => .bool b
  | .num n => .num n
  | .str s => .str s
  | .arr es => .arr es.collapseElems
  | .obj ms => .obj (buildMembers ms.collapseVals)

def JElems.collapseElems : JElems → JElems
  | .nil => .nil
  | .cons v t => .cons v.collapse t.collapseElems

def JMembers.collapseVals : JMembers → JMembers
  | .nil => .nil
  | .cons k v t => .cons k v.collapse t.collapseVals
end

mutual
/-- Fuel needed by `parseValue` to parse this value's serialization. -/
def Json.vsize : Json → Nat
  | .arr es => 1 + es.esize
  | .obj ms => 1 + ms.msize
  | _ => 1

def JElems.esize : JElems → Nat
  | .nil => 0
  | .cons v t => 1 + max v.vsize t.esize

def JMembers.msize : JMembers → Nat
  | .nil => 0
  | .cons _ v t => 1 + max v.vsize t.msize
end

theorem vsize_pos : ∀ v : Json, 1 ≤ v.vsize
  | .null => le_refl 1
  | .bool _ => le_refl 1
  | .num _ => le_refl 1
  | .str _ => le_refl 1
  | .arr _ => Nat.le_add_right 1 _
  | .obj _ => Nat.le_add_right 1 _

/-! Whitespace-skipping lemmas. -/

theorem skipWs_not_ws (c : Char) (t : List Char) (h : isJsonWs c = false) :
    skipWs (c :: t) = c :: t := by
  simp [skipWs, List.dropWhile_cons, h]

theorem skipWs_ws (c : Char) (t : List Char) (h : isJsonWs c = true) :
    skipWs (c :: t) = skipWs t := by
  simp [skipWs, List.dropWhile_cons, h]

theorem skipWs_spaces (n : Nat) (l : List Char) : skipWs (spaces n ++ l) = skipWs l := by
  induction n with
  | zero => rfl
  | succ n ih =>
    rw [show spaces (n+1) ++ l = ' ' :: (spaces n ++ l) from rfl,
      skipWs_ws ' ' _ (by decide), ih]

theorem isDigitChar_ne (c x : Char) (h : isDigitChar c = true)
    (hx : isDigitChar x = false) : c ≠ x := by
  intro he
  rw [he, hx] at h
  cases h

theorem isDigitChar_not_ws (c : Char) (h : isDigitChar c = true) : isJsonWs c = false := by
  cases hws : isJsonWs c
  · rfl
  · exfalso
    have hc : ((c = ' ' ∨ c = '\t') ∨ c = '\n') ∨ c = '\x0d' := by
      simpa [isJsonWs] using hws
    rcases hc with ((rfl | rfl) | rfl) | rfl <;> simp [isDigitChar, digitVal] at h

/-- The first character `json.dumps` emits is never whitespace nor a closing
bracket, so the parser's lookahead lands on it. -/
theorem dumpsChars_head_spec (lvl : Nat) (v : Json) :
    ∃ c t, Json.dumpsChars lvl v = c :: t ∧ isJsonWs c = false ∧ c ≠ ']' := by
  cases v with
  | null => exact ⟨'n', _, rfl, by decide, by decide⟩
  | bool b =>
    cases b with
    | true => exact ⟨'t', _, rfl, by decide, by decide⟩
    | false => exact ⟨'f', _, rfl, by decide, by decide⟩
  | num n =>
    cases n with
    | ofNat m =>
      cases hd : natToChars m with
      | nil => exact absurd hd (natToCharsAux_ne_nil (m+1) m (by omega))
      | cons c t =>
        have hdig : isDigitChar c = true := by
          apply natToCharsAux_all_digits (m+1) m c
          rw [show natToCharsAux (m+1) m = natToChars m from rfl, hd]
          exact List.mem_cons_self c t
        refine ⟨c, t, ?_, isDigitChar_not_ws c hdig, isDigitChar_ne c ']' hdig (by decide)⟩
        show natToChars m = c :: t
        exact hd
    | negSucc m => exact ⟨'-', _, rfl, by decide, by decide⟩
  | str s => exact ⟨'"', _, rfl, by decide, by decide⟩
  | arr es =>
    cases es with
    | nil => exact ⟨'[', _, rfl, by decide, by decide⟩
    | cons h t => exact ⟨'[', _, rfl, by decide, by decide⟩
  | obj ms =>
    cases ms with
    | nil => exact ⟨'{', _, rfl, by decide, by decide⟩
    | cons k v t => exact ⟨'{', _, rfl, by decide, by decide⟩

/-! One-step reduction lemmas for the parser on each leading character. -/

theorem parseValue_lbrace (fuel : Nat) (t : List Char) :
    parseValue (fuel+1) ('{' :: t) =
      (match skipWs t with
       | '}' :: t2 => some (.obj .nil, t2)
       | t2 =>
         match parseMembers fuel t2 with
         | some (ms, r) => some (.obj (buildMembers ms), r)
         | none => none) := rfl

theorem parseValue_lbrack (fuel : Nat) (t : List Char) :
    parseValue (fuel+1) ('[' :: t) =
      (match skipWs t with
       | ']' :: t2 => some (.arr .nil, t2)
       | t2 =>
         match parseElems fuel t2 with
         | some (es, r) => some (.arr es, r)
         | none => none) := rfl

theorem parseValue_quote (fuel : Nat) (t : List Char) :
    parseValue (fuel+1) ('"' :: t) =
      (parseStringBody t).map (fun p => (Json.str (String.mk p.1), p.2)) := rfl

theorem parseValue_litNull (fuel : Nat) (rest : List Char) :
    parseValue (fuel+1) ('n' :: 'u' :: 'l' :: 'l' :: rest) = some (.null, rest) := rfl

theorem parseValue_litTrue (fuel : Nat) (rest : List Char) :
    parseValue (fuel+1) ('t' :: 'r' :: 'u' :: 'e' :: rest) = some (.bool true, rest) := rfl

theorem parseValue_litFalse (fuel : Nat) (rest : List Char) :
    parseValue (fuel+1) ('f' :: 'a' :: 'l' :: 's' :: 'e' :: rest) = some (.bool false, rest) := rfl

theorem parseValue_minus (fuel : Nat) (t : List Char) :
    parseValue (fuel+1) ('-' :: t) =
      (parseNat t).map (fun p => (Json.num (-(p.1 : Int)), p.2)) := rfl

theorem parseValue_ws (fuel : Nat) (c : Char) (l : List Char) (h : isJsonWs c = true) :
    parseValue (fuel+1) (c :: l) = parseValue (fuel+1) l := by
  unfold parseValue
  rw [show skipWs (c :: l) = skipWs l from by simp [skipWs, List.dropWhile_cons, h]]

theorem parseValue_digit (fuel : Nat) (c : Char) (t : List Char) (h : isDigitChar c = true) :
    parseValue (fuel+1) (c :: t) =
      (parseNat (c :: t)).map (fun p => (Json.num (p.1 : Int), p.2)) := by
  have hws := isDigitChar_not_ws c h
  obtain ⟨d, hd⟩ : ∃ d, digitVal c = some d := by
    have h2 : (digitVal c).isSome = true := h
    exact Option.isSome_iff_exists.mp h2
  unfold parseValue
  rw [skipWs_not_ws c t hws]
  show (if c = '{' then _ else if c = '[' then _ else if c = '"' then _
    else if c = 't' then _ else if c = 'f' then _ else if c = 'n' then _
    else if c = '-' then _
    else match digitVal c with
      | some _ => (parseNat (c :: t)).map
          (fun (p : Nat × List Char) => (Json.num (p.1 : Int), p.2))
      | none => none) = _
  rw [if_neg (isDigitChar_ne c '{' h (by decide)),
    if_neg (isDigitChar_ne c '[' h (by decide)),
    if_neg (isDigitChar_ne c '"' h (by decide)),
    if_neg (isDigitChar_ne c 't' h (by decide)),
    if_neg (isDigitChar_ne c 'f' h (by decide)),
    if_neg (isDigitChar_ne c 'n' h (by decide)),
    if_neg (isDigitChar_ne c '-' h (by decide)), hd]

theorem parseValue_lbrace_empty (fuel : Nat) (t t2 : List Char)
    (h : skipWs t = '}' :: t2) :
    parseValue (fuel+1) ('{' :: t) = some (.obj .nil, t2) := by
  rw [parseValue_lbrace, h]
  rfl

theorem parseValue_lbrack_empty (fuel : Nat) (t t2 : List Char)
    (h : skipWs t = ']' :: t2) :
    parseValue (fuel+1) ('[' :: t) = some (.arr .nil, t2) := by
  rw [parseValue_lbrack, h]
  rfl

theorem parseValue_lbrace_members (fuel : Nat) (t w : List Char)
    (h : skipWs t = '"' :: w) :
    parseValue (fuel+1) ('{' :: t) =
      (match parseMembers fuel ('"' :: w) with
       | some (ms, r) => some (.obj (buildMembers ms), r)
       | none => none) := by
  rw [parseValue_lbrace, h]
  rfl

theorem parseValue_lbrack_elems (fuel : Nat) (t : List Char) (c : Char) (w : List Char)
    (h : skipWs t = c :: w) (hne : c ≠ ']') :
    parseValue (fuel+1) ('[' :: t) =
      (match parseElems fuel (c :: w) with
       | some (es, r) => some (.arr es, r)
       | none => none) := by
  rw [parseValue_lbrack, h]
  split
  · rename_i t2 heq
    injection heq with h1 _
    exact absurd h1 hne
  · rfl

theorem parseMembers_quote (fuel : Nat) (t : List Char) :
    parseMembers (fuel+1) ('"' :: t) =
      (match parseStringBody t with
       | some (kcs, t2) =>
         match skipWs t2 with
         | ':' :: t3 =>
           match parseValue fuel t3 with
           | some (v, t4) =>
             match skipWs t4 with
             | ',' :: t5 =>
               match parseMembers fuel (skipWs t5) with
               | some (ms, r) => some (.cons (String.mk kcs) v ms, r)
               | none => none
             | '}' :: t5 => some (.cons (String.mk kcs) v .nil, t5)
             | _ => none
           | none => none
         | _ => none
       | none => none) := rfl

theorem parseMembers_key (fuel : Nat) (t kcs t2 : List Char)
    (h : parseStringBody t = some (kcs, t2)) :
    parseMembers (fuel+1) ('"' :: t) =
      (match skipWs t2 with
       | ':' :: t3 =>
         match parseValue fuel t3 with
         | some (v, t4) =>
           match skipWs t4 with
           | ',' :: t5 =>
             match parseMembers fuel (skipWs t5) with
             | some (ms, r) => some (.cons (String.mk kcs) v ms, r)
             | none => none
           | '}' :: t5 => some (.cons (String.mk kcs) v .nil, t5)
           | _ => none
         | none => none
       | _ => none) := by
  rw [parseMembers_quote, h]

theorem parseMembers_colon (fuel : Nat) (t kcs t2 t3 : List Char)
    (h : parseStringBody t = some (kcs, t2)) (h2 : skipWs t2 = ':' :: t3) :
    parseMembers (fuel+1) ('"' :: t) =
      (match parseValue fuel t3 with
       | some (v, t4) =>
         match skipWs t4 with
         | ',' :: t5 =>
           match parseMembers fuel (skipWs t5) with
           | some (ms, r) => some (.cons (String.mk kcs) v ms, r)
           | none => none
         | '}' :: t5 => some (.cons (String.mk kcs) v .nil, t5)
         | _ => none
       | none => none) := by
  rw [parseMembers_key fuel t kcs t2 h, h2]
  rfl

theorem parseMembers_val (fuel : Nat) (t kcs t2 t3 : List Char) (v : Json) (t4 : List Char)
    (h : parseStringBody t = some (kcs, t2)) (h2 : skipWs t2 = ':' :: t3)
    (h3 : parseValue fuel t3 = some (v, t4)) :
    parseMembers (fuel+1) ('"' :: t) =
      (match skipWs t4 with
       | ',' :: t5 =>
         match parseMembers fuel (skipWs t5) with
         | some (ms, r) => some (.cons (String.mk kcs) v ms, r)
         | none => none
       | '}' :: t5 => some (.cons (String.mk kcs) v .nil, t5)
       | _ => none) := by
  rw [parseMembers_colon fuel t kcs t2 t3 h h2, h3]

theorem parseMembers_last (fuel : Nat) (t kcs t2 t3 : List Char) (v : Json) (t4 t5 : List Char)
    (h : parseStringBody t = some (kcs, t2)) (h2 : skipWs t2 = ':' :: t3)
    (h3 : parseValue fuel t3 = some (v, t4)) (h4 : skipWs t4 = '}' :: t5) :
    parseMembers (fuel+1) ('"' :: t) = some (.cons (String.mk kcs) v .nil, t5) := by
  rw [parseMembers_val fuel t kcs t2 t3 v t4 h h2 h3, h4]
  rfl

theorem parseMembers_comma (fuel : Nat) (t kcs t2 t3 : List Char) (v : Json) (t4 t5 : List Char)
    (h : parseStringBody t = some (kcs, t2)) (h2 : skipWs t2 = ':' :: t3)
    (h3 : parseValue fuel t3 = some (v, t4)) (h4 : skipWs t4 = ',' :: t5) :
    parseMembers (fuel+1) ('"' :: t) =
      (match parseMembers fuel (skipWs t5) with
       | some (ms, r) => some (.cons (String.mk kcs) v ms, r)
       | none => none) := by
  rw [parseMembers_val fuel t kcs t2 t3 v t4 h h2 h3, h4]
  rfl

theorem parseElems_val (fuel : Nat) (l : List Char) (v : Json) (t : List Char)
    (h : parseValue fuel l = some (v, t)) :
    parseElems (fuel+1) l =
      (match skipWs t with
       | ',' :: t2 =>
         match parseElems fuel (skipWs t2) with
         | some (es, r) => some (.cons v es, r)
         | none => none
       | ']' :: t2 => some (.cons v .nil, t2)
       | _ => none) := by
  rw [parseElems, h]

theorem parseElems_last (fuel : Nat) (l : List Char) (v : Json) (t t2 : List Char)
    (h : parseValue fuel l = some (v, t)) (h2 : skipWs t = ']' :: t2) :
    parseElems (fuel+1) l = some (.cons v .nil, t2) := by
  rw [parseElems_val fuel l v t h, h2]
  rfl

theorem parseElems_comma (fuel : Nat) (l : List Char) (v : Json) (t t2 : List Char)
    (h : parseValue fuel l = some (v, t)) (h2 : skipWs t = ',' :: t2) :
    parseElems (fuel+1) l =
      (match parseElems fuel (skipWs t2) with
       | some (es, r) => some (.cons v es, r)
       | none => none) := by
  rw [parseElems_val fuel l v t h, h2]
  rfl

/-! ## Round-trip: the full parse of a dumps -/


theorem head_not_digit (c0 : Char) (l : List Char) (h : isDigitChar c0 = false) :
    ∀ c, (c0 :: l).head? = some c → isDigitChar c = false := by
  intro c hc
  have h1 : c0 = c := by simpa using hc
  rwa [← h1]

theorem escString_append (k : String) (z : List Char) :
    escString k ++ z = '"' :: (escChars k.data ++ ('"' :: z)) := by
  simp [escString, List.cons_append, List.append_assoc]

theorem skipWs_nl_spaces_escString (n : Nat) (k : String) (z : List Char) :
    skipWs ('\n' :: (spaces n ++ (escString k ++ z))) = '"' :: (escChars k.data ++ ('"' :: z)) := by
  rw [skipWs_ws '\n' _ (by decide), skipWs_spaces, escString_append,
    skipWs_not_ws '"' _ (by decide)]

theorem skipWs_nl_spaces_dumps (n lvl : Nat) (v : Json) (z : List Char) :
    skipWs ('\n' :: (spaces n ++ (Json.dumpsChars lvl v ++ z))) =
      Json.dumpsChars lvl v ++ z := by
  rw [skipWs_ws '\n' _ (by decide), skipWs_spaces]
  obtain ⟨c, t, hct, hws, _⟩ := dumpsChars_head_spec lvl v
  rw [hct, List.cons_append, skipWs_not_ws c _ hws]

mutual
/-- Parsing the serialization of `v` recovers `v` up to duplicate-key
collapse, leaving exactly the trailing text. -/
theorem parseValue_dumps : ∀ (v : Json) (lvl fuel : Nat) (rest : List Char),
    v.vsize ≤ fuel →
    (∀ c, rest.head? = some c → isDigitChar c = false) →
    parseValue fuel (Json.dumpsChars lvl v ++ rest) = some (v.collapse, rest)
  | .null, lvl, fuel, rest, hf, hrest => by
    cases fuel with
    | zero => have h1 := vsize_pos Json.null; omega
    | succ f =>
      rw [show Json.dumpsChars lvl Json.null ++ rest = 'n' :: ('u' :: ('l' :: ('l' :: rest)))
        from rfl]
      exact parseValue_litNull f rest
  | .bool true, lvl, fuel, rest, hf, hrest => by
    cases fuel with
    | zero => have h1 := vsize_pos (Json.bool true); omega
    | succ f =>
      rw [show Json.dumpsChars lvl (Json.bool true) ++ rest =
        't' :: ('r' :: ('u' :: ('e' :: rest))) from rfl]
      exact parseValue_litTrue f rest
  | .bool false, lvl, fuel, rest, hf, hrest => by
    cases fuel with
    | zero => have h1 := vsize_pos (Json.bool false); omega
    | succ f =>
      rw [show Json.dumpsChars lvl (Json.bool false) ++ rest =
        'f' :: ('a' :: ('l' :: ('s' :: ('e' :: rest)))) from rfl]
      exact parseValue_litFalse f rest
  | .num (Int.ofNat m), lvl, fuel, rest, hf, hrest => by
    cases fuel with
    | zero => have h1 := vsize_pos (Json.num (Int.ofNat m)); omega
    | succ f =>
      cases hd : natToChars m with
      | nil => exact absurd hd (natToCharsAux_ne_nil (m+1) m (by omega))
      | cons c t =>
        have hdig : isDigitChar c = true := by
          apply natToCharsAux_all_digits (m+1) m c
          rw [show natToCharsAux (m+1) m = natToChars m from rfl, hd]
          exact List.mem_cons_self c t
        rw [show Json.dumpsChars lvl (Json.num (Int.ofNat m)) ++ rest = c :: (t ++ rest) from by
          show natToChars m ++ rest = c :: (t ++ rest)
          rw [hd, List.cons_append]]
        rw [parseValue_digit f c (t ++ rest) hdig]
        rw [show c :: (t ++ rest) = natToChars m ++ rest from by rw [hd, List.cons_append]]
        rw [parseNat_natToChars m rest hrest]
        rfl
  | .num (Int.negSucc m), lvl, fuel, rest, hf, hrest => by
    cases fuel with
    | zero => have h1 := vsize_pos (Json.num (Int.negSucc m)); omega
    | succ f =>
      rw [show Json.dumpsChars lvl (Json.num (Int.negSucc m)) ++ rest =
        '-' :: (natToChars (m+1) ++ rest) from by
          show ('-' :: natToChars (m+1)) ++ rest = _
          rw [List.cons_append]]
      rw [parseValue_minus f, parseNat_natToChars (m+1) rest hrest]
      show some (Json.num (-((m+1 : Nat) : Int)), rest) = some (Json.num (Int.negSucc m), rest)
      have h2 : (-((m+1 : Nat) : Int)) = Int.negSucc m := by
        rw [Int.negSucc_eq]
        simp
      rw [h2]
  | .str s, lvl, fuel, rest, hf, hrest => by
    cases fuel with
    | zero => have h1 := vsize_pos (Json.str s); omega
    | succ f =>
      rw [show Json.dumpsChars lvl (Json.str s) ++ rest =
        '"' :: (escChars s.data ++ ('"' :: rest)) from by
          show ('"' :: (escChars s.data ++ ['"'])) ++ rest = _
          simp [List.cons_append, List.append_assoc]]
      rw [parseValue_quote f, parseStringBody_escChars s.data rest]
      rfl
  | .arr .nil, lvl, fuel, rest, hf, hrest => by
    cases fuel with
    | zero => have h1 := vsize_pos (Json.arr JElems.nil); omega
    | succ f =>
      rw [show Json.dumpsChars lvl (Json.arr JElems.nil) ++ rest = '[' :: (']' :: rest) from rfl]
      rw [parseValue_lbrack_empty f _ rest (skipWs_not_ws ']' rest (by decide))]
      rfl
  | .arr (.cons h t), lvl, fuel, rest, hf, hrest => by
    cases fuel with
    | zero => have h1 := vsize_pos (Json.arr (JElems.cons h t)); omega
    | succ f =>
      have hfe : (JElems.cons h t).esize ≤ f := by
        rw [show (Json.arr (JElems.cons h t)).vsize = 1 + (JElems.cons h t).esize from rfl] at hf
        omega
      rw [show Json.dumpsChars lvl (Json.arr (JElems.cons h t)) ++ rest =
        '[' :: ('\n' :: (spaces (2*(lvl+1)) ++ (Json.dumpsChars (lvl+1) h ++
          (JElems.dumpsTail (lvl+1) t ++ ('\n' :: (spaces (2*lvl) ++ (']' :: rest))))))) from by
            show ('[' :: '\n' :: (spaces (2 * (lvl + 1)) ++
              (Json.dumpsChars (lvl + 1) h ++
                (JElems.dumpsTail (lvl + 1) t ++ '\n' :: (spaces (2 * lvl) ++ [']']))))) ++ rest = _
            simp [List.cons_append, List.append_assoc]]
      obtain ⟨c, t2, hct, hws, hne⟩ := dumpsChars_head_spec (lvl+1) h
      have hsk : skipWs ('\n' :: (spaces (2*(lvl+1)) ++ (Json.dumpsChars (lvl+1) h ++
          (JElems.dumpsTail (lvl+1) t ++ ('\n' :: (spaces (2*lvl) ++ (']' :: rest))))))) =
          c :: (t2 ++ (JElems.dumpsTail (lvl+1) t ++ ('\n' :: (spaces (2*lvl) ++ (']' :: rest))))) := by
        rw [skipWs_ws '\n' _ (by decide), skipWs_spaces, hct, List.cons_append,
          skipWs_not_ws c _ hws]
      rw [parseValue_lbrack_elems f _ c _ hsk hne]
      rw [show c :: (t2 ++ (JElems.dumpsTail (lvl+1) t ++ ('\n' :: (spaces (2*lvl) ++ (']' :: rest))))) =
        Json.dumpsChars (lvl+1) h ++ (JElems.dumpsTail (lvl+1) t ++
          ('\n' :: (spaces (2*lvl) ++ (']' :: rest)))) from by rw [hct, List.cons_append]]
      rw [parseElems_dumps h t lvl f rest hfe hrest]
      rfl
  | .obj .nil, lvl, fuel, rest, hf, hrest => by
    cases fuel with
    | zero => have h1 := vsize_pos (Json.obj JMembers.nil); omega
    | succ f =>
      rw [show Json.dumpsChars lvl (Json.obj JMembers.nil) ++ rest = '{' :: ('}' :: rest) from rfl]
      rw [parseValue_lbrace_empty f _ rest (skipWs_not_ws '}' rest (by decide))]
      rfl
  | .obj (.cons k v t), lvl, fuel, rest, hf, hrest => by
    cases fuel with
    | zero => have h1 := vsize_pos (Json.obj (JMembers.cons k v t)); omega
    | succ f =>
      have hfm : (JMembers.cons k v t).msize ≤ f := by
        rw [show (Json.obj (JMembers.cons k v t)).vsize = 1 + (JMembers.cons k v t).msize
          from rfl] at hf
        omega
      rw [show Json.dumpsChars lvl (Json.obj (JMembers.cons k v t)) ++ rest =
        '{' :: ('\n' :: (spaces (2*(lvl+1)) ++ (escString k ++ (':' :: (' ' ::
          (Json.dumpsChars (lvl+1) v ++ (JMembers.dumpsTail (lvl+1) t ++
            ('\n' :: (spaces (2*lvl) ++ ('}' :: rest)))))))))) from by
            show ('{' :: '\n' :: (spaces (2 * (lvl + 1)) ++
              (escString k ++ ':' :: ' ' :: (Json.dumpsChars (lvl + 1) v ++
                (JMembers.dumpsTail (lvl + 1) t ++ '\n' :: (spaces (2 * lvl) ++ ['}'])))))) ++ rest = _
            simp [List.cons_append, List.append_assoc]]
      rw [parseValue_lbrace_members f _ _ (skipWs_nl_spaces_escString (2*(lvl+1)) k _)]
      rw [parseMembers_dumps k v t lvl f rest hfm hrest]
      rfl
termination_by v lvl fuel rest hf hrest => sizeOf v
decreasing_by all_goals (simp_wf; try omega)

/-- Parsing the members text of a nonempty object (from the first key's
opening quote), through the closing brace. -/
theorem parseMembers_dumps : ∀ (k : String) (v : Json) (t : JMembers) (lvl fuel : Nat)
    (rest : List Char),
    (JMembers.cons k v t).msize ≤ fuel →
    (∀ c, rest.head? = some c → isDigitChar c = false) →
    parseMembers fuel ('"' :: (escChars k.data ++ ('"' :: (':' :: (' ' ::
        (Json.dumpsChars (lvl+1) v ++ (JMembers.dumpsTail (lvl+1) t ++
          ('\n' :: (spaces (2*lvl) ++ ('}' :: rest)))))))))) =
      some ((JMembers.cons k v t).collapseVals, rest)
  | k, v, .nil, lvl, fuel, rest, hf, hrest => by
    cases fuel with
    | zero =>
      rw [show (JMembers.cons k v JMembers.nil).msize = 1 + max v.vsize JMembers.nil.msize
        from rfl] at hf
      omega
    | succ f =>
      have hv : v.vsize ≤ f := by
        rw [show (JMembers.cons k v JMembers.nil).msize = 1 + max v.vsize JMembers.nil.msize
          from rfl] at hf
        omega
      cases f with
      | zero => have h1 := vsize_pos v; omega
      | succ f2 =>
          have h3 : parseValue (f2+1) (' ' :: (Json.dumpsChars (lvl+1) v ++
              (JMembers.dumpsTail (lvl+1) JMembers.nil ++
                ('\n' :: (spaces (2*lvl) ++ ('}' :: rest)))))) =
              some (v.collapse, '\n' :: (spaces (2*lvl) ++ ('}' :: rest))) := by
            rw [parseValue_ws f2 ' ' _ (by decide)]
            rw [show JMembers.dumpsTail (lvl+1) JMembers.nil ++
              ('\n' :: (spaces (2*lvl) ++ ('}' :: rest))) =
              '\n' :: (spaces (2*lvl) ++ ('}' :: rest)) from rfl]
            exact parseValue_dumps v (lvl+1) (f2+1) _ hv (head_not_digit '\n' _ (by decide))
          have h4 : skipWs ('\n' :: (spaces (2*lvl) ++ ('}' :: rest))) = '}' :: rest := by
            rw [skipWs_ws '\n' _ (by decide), skipWs_spaces, skipWs_not_ws '}' _ (by decide)]
          rw [parseMembers_last (f2+1) _ k.data _ _ v.collapse _ rest
            (parseStringBody_escChars k.data _) (skipWs_not_ws ':' _ (by decide)) h3 h4]
          rfl
  | k, v, .cons k2 v2 t2, lvl, fuel, rest, hf, hrest => by
    cases fuel with
    | zero =>
      rw [show (JMembers.cons k v (JMembers.cons k2 v2 t2)).msize =
        1 + max v.vsize (JMembers.cons k2 v2 t2).msize from rfl] at hf
      omega
    | succ f =>
      have hv : v.vsize ≤ f := by
        rw [show (JMembers.cons k v (JMembers.cons k2 v2 t2)).msize =
          1 + max v.vsize (JMembers.cons k2 v2 t2).msize from rfl] at hf
        omega
      cases f with
      | zero => have h1 := vsize_pos v; omega
      | succ f2 =>
          have hm2 : (JMembers.cons k2 v2 t2).msize ≤ f2+1 := by
            rw [show (JMembers.cons k v (JMembers.cons k2 v2 t2)).msize =
              1 + max v.vsize (JMembers.cons k2 v2 t2).msize from rfl] at hf
            omega
          have htail : JMembers.dumpsTail (lvl+1) (JMembers.cons k2 v2 t2) ++
              ('\n' :: (spaces (2*lvl) ++ ('}' :: rest))) =
              ',' :: ('\n' :: (spaces (2*(lvl+1)) ++ (escString k2 ++ (':' :: (' ' ::
                (Json.dumpsChars (lvl+1) v2 ++ (JMembers.dumpsTail (lvl+1) t2 ++
                  ('\n' :: (spaces (2*lvl) ++ ('}' :: rest)))))))))) := by
            show (',' :: '\n' :: (spaces (2 * (lvl + 1)) ++
              (escString k2 ++ ':' :: ' ' :: (Json.dumpsChars (lvl + 1) v2 ++
                JMembers.dumpsTail (lvl + 1) t2)))) ++
              ('\n' :: (spaces (2*lvl) ++ ('}' :: rest))) = _
            simp [List.cons_append, List.append_assoc]
          have h3 : parseValue (f2+1) (' ' :: (Json.dumpsChars (lvl+1) v ++
              (JMembers.dumpsTail (lvl+1) (JMembers.cons k2 v2 t2) ++
                ('\n' :: (spaces (2*lvl) ++ ('}' :: rest)))))) =
              some (v.collapse, ',' :: ('\n' :: (spaces (2*(lvl+1)) ++ (escString k2 ++ (':' :: (' ' ::
                (Json.dumpsChars (lvl+1) v2 ++ (JMembers.dumpsTail (lvl+1) t2 ++
                  ('\n' :: (spaces (2*lvl) ++ ('}' :: rest))))))))))) := by
            rw [parseValue_ws f2 ' ' _ (by decide), htail]
            exact parseValue_dumps v (lvl+1) (f2+1) _ hv (head_not_digit ',' _ (by decide))
          rw [parseMembers_comma (f2+1) _ k.data _ _ v.collapse _ _
            (parseStringBody_escChars k.data _) (skipWs_not_ws ':' _ (by decide)) h3
            (skipWs_not_ws ',' _ (by decide))]
          rw [skipWs_nl_spaces_escString (2*(lvl+1)) k2 _]
          rw [parseMembers_dumps k2 v2 t2 lvl (f2+1) rest hm2 hrest]
          rfl
termination_by k v t lvl fuel rest hf hrest => 1 + sizeOf v + sizeOf t
decreasing_by all_goals (simp_wf; try omega)

/-- Parsing the elements text of a nonempty array, through the closing
bracket. -/
theorem parseElems_dumps : ∀ (v : Json) (t : JElems) (lvl fuel : Nat) (rest : List Char),
    (JElems.cons v t).esize ≤ fuel →
    (∀ c, rest.head? = some c → isDigitChar c = false) →
    parseElems fuel (Json.dumpsChars (lvl+1) v ++ (JElems.dumpsTail (lvl+1) t ++
        ('\n' :: (spaces (2*lvl) ++ (']' :: rest))))) =
      some ((JElems.cons v t).collapseElems, rest)
  | v, .nil, lvl, fuel, rest, hf, hrest => by
    cases fuel with
    | zero =>
      rw [show (JElems.cons v JElems.nil).esize = 1 + max v.vsize JElems.nil.esize
        from rfl] at hf
      omega
    | succ f =>
      have hv : v.vsize ≤ f := by
        rw [show (JElems.cons v JElems.nil).esize = 1 + max v.vsize JElems.nil.esize
          from rfl] at hf
        omega
      cases f with
      | zero => have h1 := vsize_pos v; omega
      | succ f2 =>
          have h3 : parseValue (f2+1) (Json.dumpsChars (lvl+1) v ++
              (JElems.dumpsTail (lvl+1) JElems.nil ++ ('\n' :: (spaces (2*lvl) ++ (']' :: rest))))) =
              some (v.collapse, '\n' :: (spaces (2*lvl) ++ (']' :: rest))) := by
            rw [show JElems.dumpsTail (lvl+1) JElems.nil ++
              ('\n' :: (spaces (2*lvl) ++ (']' :: rest))) =
              '\n' :: (spaces (2*lvl) ++ (']' :: rest)) from rfl]
            exact parseValue_dumps v (lvl+1) (f2+1) _ hv (head_not_digit '\n' _ (by decide))
          have h4 : skipWs ('\n' :: (spaces (2*lvl) ++ (']' :: rest))) = ']' :: rest := by
            rw [skipWs_ws '\n' _ (by decide), skipWs_spaces, skipWs_not_ws ']' _ (by decide)]
          rw [parseElems_last (f2+1) _ v.collapse _ rest h3 h4]
          rfl
  | v, .cons v2 t2, lvl, fuel, rest, hf, hrest => by
    cases fuel with
    | zero =>
      rw [show (JElems.cons v (JElems.cons v2 t2)).esize =
        1 + max v.vsize (JElems.cons v2 t2).esize from rfl] at hf
      omega
    | succ f =>
      have hv : v.vsize ≤ f := by
        rw [show (JElems.cons v (JElems.cons v2 t2)).esize =
          1 + max v.vsize (JElems.cons v2 t2).esize from rfl] at hf
        omega
      cases f with
      | zero => have h1 := vsize_pos v; omega
      | succ f2 =>
          have he2 : (JElems.cons v2 t2).esize ≤ f2+1 := by
            rw [show (JElems.cons v (JElems.cons v2 t2)).esize =
              1 + max v.vsize (JElems.cons v2 t2).esize from rfl] at hf
            omega
          have htail : JElems.dumpsTail (lvl+1) (JElems.cons v2 t2) ++
              ('\n' :: (spaces (2*lvl) ++ (']' :: rest))) =
              ',' :: ('\n' :: (spaces (2*(lvl+1)) ++ (Json.dumpsChars (lvl+1) v2 ++
                (JElems.dumpsTail (lvl+1) t2 ++ ('\n' :: (spaces (2*lvl) ++ (']' :: rest))))))) := by
            show (',' :: '\n' :: (spaces (2 * (lvl + 1)) ++
              (Json.dumpsChars (lvl + 1) v2 ++ JElems.dumpsTail (lvl + 1) t2))) ++
              ('\n' :: (spaces (2*lvl) ++ (']' :: rest))) = _
            simp [List.cons_append, List.append_assoc]
          have h3 : parseValue (f2+1) (Json.dumpsChars (lvl+1) v ++
              (JElems.dumpsTail (lvl+1) (JElems.cons v2 t2) ++
                ('\n' :: (spaces (2*lvl) ++ (']' :: rest))))) =
              some (v.collapse, ',' :: ('\n' :: (spaces (2*(lvl+1)) ++ (Json.dumpsChars (lvl+1) v2 ++
                (JElems.dumpsTail (lvl+1) t2 ++ ('\n' :: (spaces (2*lvl) ++ (']' :: rest)))))))) := by
            rw [htail]
            exact parseValue_dumps v (lvl+1) (f2+1) _ hv (head_not_digit ',' _ (by decide))
          rw [parseElems_comma (f2+1) _ v.collapse _ _ h3 (skipWs_not_ws ',' _ (by decide))]
          rw [skipWs_nl_spaces_dumps (2*(lvl+1)) (lvl+1) v2 _]
          rw [parseElems_dumps v2 t2 lvl (f2+1) rest he2 hrest]
          rfl
termination_by v t lvl fuel rest hf hrest => 1 + sizeOf v + sizeOf t
decreasing_by all_goals (simp_wf; try omega)
end

/-! ## Round-trip: full parse of dumps, and well-formed collapse -/


/-! The serialized text is at least as long as the fuel the parser needs. -/

mutual
theorem vsize_le_dumps : ∀ (v : Json) (lvl : Nat), v.vsize ≤ (Json.dumpsChars lvl v).length
  | .null, lvl => by show (1 : Nat) ≤ 4; decide
  | .bool true, lvl => by show (1 : Nat) ≤ 4; decide
  | .bool false, lvl => by show (1 : Nat) ≤ 5; decide
  | .num n, lvl => by
    show (1 : Nat) ≤ (intChars n).length
    have h : intChars n ≠ [] := by
      cases n with
      | ofNat m => exact natToCharsAux_ne_nil (m+1) m (by omega)
      | negSucc m => simp [intChars]
    have h2 := List.length_pos.mpr h
    omega
  | .str s, lvl => by
    show (1 : Nat) ≤ (escString s).length
    simp [escString]
  | .arr .nil, lvl => by show (1 : Nat) ≤ 2; decide
  | .arr (.cons h t), lvl => by
    have ih1 := vsize_le_dumps h (lvl+1)
    have ih2 := esize_le_dumpsTail t (lvl+1)
    rw [show (Json.arr (JElems.cons h t)).vsize = 1 + (1 + max h.vsize t.esize) from rfl]
    rw [show Json.dumpsChars lvl (Json.arr (JElems.cons h t)) =
      '[' :: '\n' :: (spaces (2*(lvl+1)) ++ (Json.dumpsChars (lvl+1) h ++
        (JElems.dumpsTail (lvl+1) t ++ '\n' :: (spaces (2*lvl) ++ [']'])))) from rfl]
    simp [List.length_cons, List.length_append]
    omega
  | .obj .nil, lvl => by show (1 : Nat) ≤ 2; decide
  | .obj (.cons k v t), lvl => by
    have ih1 := vsize_le_dumps v (lvl+1)
    have ih2 := msize_le_dumpsTail t (lvl+1)
    rw [show (Json.obj (JMembers.cons k v t)).vsize = 1 + (1 + max v.vsize t.msize) from rfl]
    rw [show Json.dumpsChars lvl (Json.obj (JMembers.cons k v t)) =
      '{' :: '\n' :: (spaces (2*(lvl+1)) ++ (escString k ++ ':' :: ' ' ::
        (Json.dumpsChars (lvl+1) v ++ (JMembers.dumpsTail (lvl+1) t ++
          '\n' :: (spaces (2*lvl) ++ ['}']))))) from rfl]
    simp [List.length_cons, List.length_append]
    omega

theorem msize_le_dumpsTail : ∀ (t : JMembers) (lvl : Nat),
    t.msize ≤ (JMembers.dumpsTail lvl t).length
  | .nil, lvl => by show (0 : Nat) ≤ 0; decide
  | .cons k v t, lvl => by
    have ih1 := vsize_le_dumps v lvl
    have ih2 := msize_le_dumpsTail t lvl
    rw [show (JMembers.cons k v t).msize = 1 + max v.vsize t.msize from rfl]
    rw [show JMembers.dumpsTail lvl (JMembers.cons k v t) =
      ',' :: '\n' :: (spaces (2*lvl) ++ (escString k ++ ':' :: ' ' ::
        (Json.dumpsChars lvl v ++ JMembers.dumpsTail lvl t))) from rfl]
    simp [List.length_cons, List.length_append]
    omega

theorem esize_le_dumpsTail : ∀ (t : JElems) (lvl : Nat),
    t.esize ≤ (JElems.dumpsTail lvl t).length
  | .nil, lvl => by show (0 : Nat) ≤ 0; decide
  | .cons v t, lvl => by
    have ih1 := vsize_le_dumps v lvl
    have ih2 := esize_le_dumpsTail t lvl
    rw [show (JElems.cons v t).esize = 1 + max v.vsize t.esize from rfl]
    rw [show JElems.dumpsTail lvl (JElems.cons v t) =
      ',' :: '\n' :: (spaces (2*lvl) ++ (Json.dumpsChars lvl v ++ JElems.dumpsTail lvl t))
      from rfl]
    simp [List.length_cons, List.length_append]
    omega
end

/-- `json.loads(json.dumps(v, indent=2))` recovers `v` up to duplicate-key
collapse. -/
theorem Json.parse_dumps (v : Json) : Json.parse (Json.dumps v) = some v.collapse := by
  unfold Json.parse Json.dumps
  have hb := vsize_le_dumps v 0
  have h := parseValue_dumps v 0 ((Json.dumpsChars 0 v).length + 1) [] (by omega)
    (by intro c hc; simp at hc)
  rw [List.append_nil] at h
  rw [show (String.mk (Json.dumpsChars 0 v)).data = Json.dumpsChars 0 v from rfl]
  rw [h]
  rfl

/-! Python dict assignment and its effect on a duplicate-free member list. -/

theorem lookup_setKey : ∀ (m : JMembers) (k : String) (v : Json) (key : String),
    (m.setKey k v).lookup key = if key = k then some v else m.lookup key
  | .nil, k, v, key => by
    rw [JMembers.setKey, JMembers.lookup, JMembers.lookup]
    by_cases hk : k = key
    · rw [if_pos hk, if_pos hk.symm]
    · rw [if_neg hk, if_neg (fun he => hk he.symm)]
      rfl
  | .cons k2 w t, k, v, key => by
    rw [JMembers.setKey]
    by_cases h2 : k2 = k
    · rw [if_pos h2, JMembers.lookup, JMembers.lookup]
      by_cases hk : key = k
      · rw [if_pos hk, if_pos (h2.trans hk.symm)]
      · rw [if_neg hk, if_neg (fun he => hk (he.symm.trans h2)),
          if_neg (fun he => hk (he.symm.trans h2))]
    · rw [if_neg h2, JMembers.lookup, JMembers.lookup]
      by_cases hk : k2 = key
      · rw [if_pos hk, if_pos hk, if_neg (fun he => h2 (hk.trans he))]
      · rw [if_neg hk, if_neg hk, lookup_setKey t k v key]

theorem containsKey_setKey (m : JMembers) (k : String) (v : Json) (key : String) :
    (m.setKey k v).containsKey key = (if key = k then true else m.containsKey key) := by
  rw [JMembers.containsKey, lookup_setKey]
  by_cases hk : key = k
  · rw [if_pos hk, if_pos hk]
    rfl
  · rw [if_neg hk, if_neg hk]
    rfl

theorem wfb_setKey : ∀ (m : JMembers) (k : String) (v : Json),
    m.wfb = true → v.wfb = true → (m.setKey k v).wfb = true
  | .nil, k, v, _, hv => by
    rw [JMembers.setKey]
    show (!JMembers.nil.containsKey k && (v.wfb && JMembers.nil.wfb)) = true
    rw [hv]
    rfl
  | .cons k2 w t, k, v, hm, hv => by
    obtain ⟨h1, h2, h3⟩ : t.containsKey k2 = false ∧ w.wfb = true ∧ t.wfb = true := by
      rw [JMembers.wfb] at hm
      simp only [Bool.and_eq_true, Bool.not_eq_true'] at hm
      exact ⟨hm.1.1, hm.1.2, hm.2⟩
    rw [JMembers.setKey]
    by_cases hk : k2 = k
    · rw [if_pos hk, JMembers.wfb]
      simp only [Bool.and_eq_true, Bool.not_eq_true']
      exact ⟨⟨h1, hv⟩, h3⟩
    · rw [if_neg hk, JMembers.wfb]
      simp only [Bool.and_eq_true, Bool.not_eq_true']
      refine ⟨⟨?_, h2⟩, wfb_setKey t k v h3 hv⟩
      rw [containsKey_setKey, if_neg hk]
      exact h1

def JMembers.appendM : JMembers → JMembers → JMembers
  | .nil, l => l
  | .cons k v t, l => .cons k v (t.appendM l)

theorem appendM_nil : ∀ m : JMembers, m.appendM .nil = m
  | .nil => rfl
  | .cons k v t => by rw [JMembers.appendM, appendM_nil t]

theorem appendM_assoc : ∀ a b c : JMembers, (a.appendM b).appendM c = a.appendM (b.appendM c)
  | .nil, _, _ => rfl
  | .cons k v t, b, c => by
    rw [JMembers.appendM, JMembers.appendM, JMembers.appendM, appendM_assoc t b c]

theorem lookup_appendM : ∀ (a b : JMembers) (key : String),
    (a.appendM b).lookup key = ((a.lookup key).orElse (fun _ => b.lookup key))
  | .nil, b, key => rfl
  | .cons k v t, b, key => by
    rw [JMembers.appendM, JMembers.lookup, JMembers.lookup]
    by_cases hk : k = key
    · rw [if_pos hk, if_pos hk]
      rfl
    · rw [if_neg hk, if_neg hk, lookup_appendM t b key]

theorem containsKey_appendM (a b : JMembers) (key : String) :
    (a.appendM b).containsKey key = (a.containsKey key || b.containsKey key) := by
  rw [JMembers.containsKey, lookup_appendM, JMembers.containsKey, JMembers.containsKey]
  cases a.lookup key <;> simp [Option.orElse]

theorem setKey_not_contains : ∀ (m : JMembers) (k : String) (v : Json),
    m.containsKey k = false → m.setKey k v = m.appendM (.cons k v .nil)
  | .nil, k, v, _ => rfl
  | .cons k2 w t, k, v, h => by
    rw [JMembers.containsKey, JMembers.lookup] at h
    by_cases hk : k2 = k
    · rw [if_pos hk] at h
      simp at h
    · rw [if_neg hk] at h
      rw [JMembers.setKey, if_neg hk, JMembers.appendM, setKey_not_contains t k v h]

theorem buildMembersAux_appendM : ∀ (ms acc : JMembers),
    JMembers.wfb ms = true →
    (∀ key, ms.containsKey key = true → acc.containsKey key = false) →
    buildMembersAux acc ms = acc.appendM ms
  | .nil, acc, _, _ => by rw [buildMembersAux, appendM_nil]
  | .cons k v t, acc, hwf, hdis => by
    obtain ⟨h1, _, h3⟩ : t.containsKey k = false ∧ v.wfb = true ∧ t.wfb = true := by
      rw [JMembers.wfb] at hwf
      simp only [Bool.and_eq_true, Bool.not_eq_true'] at hwf
      exact ⟨hwf.1.1, hwf.1.2, hwf.2⟩
    have hck : (JMembers.cons k v t).containsKey k = true := by
      rw [JMembers.containsKey, JMembers.lookup, if_pos rfl]
      rfl
    have hacc : acc.containsKey k = false := hdis k hck
    rw [buildMembersAux, setKey_not_contains acc k v hacc]
    rw [buildMembersAux_appendM t (acc.appendM (.cons k v .nil)) h3 ?_]
    · rw [appendM_assoc]
      rfl
    · intro key hkey
      rw [containsKey_appendM]
      have ha : acc.containsKey key = false := by
        apply hdis key
        rw [JMembers.containsKey, JMembers.lookup]
        by_cases hk : k = key
        · rw [if_pos hk]
          rfl
        · rw [if_neg hk]
          exact hkey
      have hb : (JMembers.cons k v JMembers.nil).containsKey key = false := by
        have hk : k ≠ key := by
          intro he
          rw [he, hkey] at h1
          cases h1
        rw [JMembers.containsKey, JMembers.lookup, if_neg hk]
        rfl
      rw [ha, hb]
      rfl

/-- Repeated dict assignment over a duplicate-free member list rebuilds it
unchanged. -/
theorem buildMembers_of_wfb (ms : JMembers) (h : JMembers.wfb ms = true) :
    buildMembers ms = ms := by
  unfold buildMembers
  rw [buildMembersAux_appendM ms .nil h (fun key _ => rfl)]
  rfl

mutual
/-- On well-formed values (duplicate-free objects all the way down) the
parse-of-dumps collapse is the identity. -/
theorem Json.collapse_of_wfb : ∀ v : Json, Json.wfb v = true → v.collapse = v
  | .null, _ => rfl
  | .bool _, _ => rfl
  | .num _, _ => rfl
  | .str _, _ => rfl
  | .arr es, h => by
    rw [show (Json.arr es).collapse = Json.arr es.collapseElems from rfl,
      JElems.collapseElems_of_wfb es h]
  | .obj ms, h => by
    rw [show (Json.obj ms).collapse = Json.obj (buildMembers ms.collapseVals) from rfl,
      JMembers.collapseVals_of_wfb ms h, buildMembers_of_wfb ms h]

theorem JElems.collapseElems_of_wfb : ∀ es : JElems, JElems.wfb es = true →
    es.collapseElems = es
  | .nil, _ => rfl
  | .cons v t, h => by
    obtain ⟨h1, h2⟩ : Json.wfb v = true ∧ JElems.wfb t = true := by
      rw [JElems.wfb] at h
      simpa using h
    rw [JElems.collapseElems, Json.collapse_of_wfb v h1, JElems.collapseElems_of_wfb t h2]

theorem JMembers.collapseVals_of_wfb : ∀ ms : JMembers, JMembers.wfb ms = true →
    ms.collapseVals = ms
  | .nil, _ => rfl
  | .cons k v t, h => by
    obtain ⟨h1, h2⟩ : Json.wfb v = true ∧ JMembers.wfb t = true := by
      rw [JMembers.wfb] at h
      simp only [Bool.and_eq_true, Bool.not_eq_true'] at h
      exact ⟨h.1.2, h.2⟩
    rw [JMembers.collapseVals, Json.collapse_of_wfb v h1, JMembers.collapseVals_of_wfb t h2]
end

/-- For a well-formed value, `json.loads(json.dumps(v, indent=2))` is exactly `v`. -/
theorem Json.parse_dumps_of_wfb (v : Json) (h : Json.wfb v = true) :
    Json.parse (Json.dumps v) = some v := by
  rw [Json.parse_dumps, Json.collapse_of_wfb v h]

/-! ## Newline counts of serialized stores -/


/-! Newline counting: `json.dumps(-, indent=2)` emits raw newlines only as the
separators its pretty-printer inserts, so the line count of a store file is
determined by the structure of the value. -/

mutual
/-- Newlines `json.dumps(v, indent=2)` emits for `v`. -/
def Json.nl : Json → Nat
  | .null => 0
  | .bool _ => 0
  | .num _ => 0
  | .str _ => 0
  | .arr .nil => 0
  | .arr (.cons h t) => 2 + h.nl + t.nlE
  | .obj .nil => 0
  | .obj (.cons _ v t) => 2 + v.nl + t.nlM

def JElems.nlE : JElems → Nat
  | .nil => 0
  | .cons h t => 1 + h.nl + t.nlE

def JMembers.nlM : JMembers → Nat
  | .nil => 0
  | .cons _ v t => 1 + v.nl + t.nlM
end

theorem count_nl_spaces : ∀ n : Nat, (spaces n).count '\n' = 0
  | 0 => rfl
  | n+1 => by
    rw [show spaces (n+1) = ' ' :: spaces n from rfl]
    simp [List.count_cons, count_nl_spaces n]

theorem hexDigitChar_ne_nl (d : Nat) : hexDigitChar d ≠ '\n' := by
  unfold hexDigitChar
  split <;> decide

theorem digitChar_ne_nl (d : Nat) : digitChar d ≠ '\n' := by
  unfold digitChar
  split <;> decide

theorem count_nl_hex4 (n : Nat) : (hex4 n).count '\n' = 0 := by
  simp [hex4, List.count_cons, hexDigitChar_ne_nl]

theorem count_nl_escapeChar (c : Char) : (escapeChar c).count '\n' = 0 := by
  unfold escapeChar
  repeat' split
  all_goals try decide
  all_goals try (simp [List.count_append, List.count_cons, count_nl_hex4]; done)
  rename_i hlt hle
  have hne : c ≠ '\n' := fun he => by subst he; exact hlt (by decide)
  simp [List.count_cons, hne]

theorem count_nl_escChars : ∀ l : List Char, (escChars l).count '\n' = 0
  | [] => rfl
  | c :: t => by
    rw [show escChars (c :: t) = escapeChar c ++ escChars t from rfl,
      List.count_append, count_nl_escapeChar, count_nl_escChars t]

theorem count_nl_escString (s : String) : (escString s).count '\n' = 0 := by
  simp [escString, List.count_cons, List.count_append, count_nl_escChars]

theorem count_nl_natToCharsAux : ∀ fuel n : Nat, (natToCharsAux fuel n).count '\n' = 0
  | 0, _ => rfl
  | fuel+1, n => by
    rw [natToCharsAux]
    split
    · simp [List.count_cons, digitChar_ne_nl]
    · rw [List.count_append, count_nl_natToCharsAux fuel (n/10)]
      simp [List.count_cons, digitChar_ne_nl]

theorem count_nl_intChars (n : Int) : (intChars n).count '\n' = 0 := by
  cases n with
  | ofNat m => exact count_nl_natToCharsAux (m+1) m
  | negSucc m =>
    rw [show intChars (Int.negSucc m) = '-' :: natToChars (m+1) from rfl]
    simp [List.count_cons, natToChars, count_nl_natToCharsAux]

mutual
theorem count_nl_dumps : ∀ (lvl : Nat) (v : Json), (Json.dumpsChars lvl v).count '\n' = v.nl
  | lvl, .null => by show List.count '\n' ['n', 'u', 'l', 'l'] = 0; decide
  | lvl, .bool true => by show List.count '\n' ['t', 'r', 'u', 'e'] = 0; decide
  | lvl, .bool false => by show List.count '\n' ['f', 'a', 'l', 's', 'e'] = 0; decide
  | lvl, .num n => by
    show (intChars n).count '\n' = 0
    exact count_nl_intChars n
  | lvl, .str s => by
    show (escString s).count '\n' = 0
    exact count_nl_escString s
  | lvl, .arr .nil => by show List.count '\n' ['[', ']'] = 0; decide
  | lvl, .arr (.cons h t) => by
    have ih1 := count_nl_dumps (lvl+1) h
    have ih2 := count_nl_dumpsTailE (lvl+1) t
    rw [show Json.dumpsChars lvl (Json.arr (JElems.cons h t)) =
      '[' :: '\n' :: (spaces (2*(lvl+1)) ++ (Json.dumpsChars (lvl+1) h ++
        (JElems.dumpsTail (lvl+1) t ++ '\n' :: (spaces (2*lvl) ++ [']'])))) from rfl]
    rw [show (Json.arr (JElems.cons h t)).nl = 2 + h.nl + t.nlE from rfl]
    simp [List.count_cons, List.count_append, count_nl_spaces, ih1, ih2]
    omega
  | lvl, .obj .nil => by show List.count '\n' ['\x7b', '\x7d'] = 0; decide
  | lvl, .obj (.cons k v t) => by
    have ih1 := count_nl_dumps (lvl+1) v
    have ih2 := count_nl_dumpsTailM (lvl+1) t
    rw [show Json.dumpsChars lvl (Json.obj (JMembers.cons k v t)) =
      '\x7b' :: '\n' :: (spaces (2*(lvl+1)) ++ (escString k ++ ':' :: ' ' ::
        (Json.dumpsChars (lvl+1) v ++ (JMembers.dumpsTail (lvl+1) t ++
          '\n' :: (spaces (2*lvl) ++ ['\x7d']))))) from rfl]
    rw [show (Json.obj (JMembers.cons k v t)).nl = 2 + v.nl + t.nlM from rfl]
    simp [List.count_cons, List.count_append, count_nl_spaces, count_nl_escString, ih1, ih2]
    omega

theorem count_nl_dumpsTailM : ∀ (lvl : Nat) (t : JMembers),
    (JMembers.dumpsTail lvl t).count '\n' = t.nlM
  | lvl, .nil => rfl
  | lvl, .cons k v t => by
    have ih1 := count_nl_dumps lvl v
    have ih2 := count_nl_dumpsTailM lvl t
    rw [show JMembers.dumpsTail lvl (JMembers.cons k v t) =
      ',' :: '\n' :: (spaces (2*lvl) ++ (escString k ++ ':' :: ' ' ::
        (Json.dumpsChars lvl v ++ JMembers.dumpsTail lvl t))) from rfl]
    rw [show (JMembers.cons k v t).nlM = 1 + v.nl + t.nlM from rfl]
    simp [List.count_cons, List.count_append, count_nl_spaces, count_nl_escString, ih1, ih2]
    omega

theorem count_nl_dumpsTailE : ∀ (lvl : Nat) (t : JElems),
    (JElems.dumpsTail lvl t).count '\n' = t.nlE
  | lvl, .nil => rfl
  | lvl, .cons v t => by
    have ih1 := count_nl_dumps lvl v
    have ih2 := count_nl_dumpsTailE lvl t
    rw [show JElems.dumpsTail lvl (JElems.cons v t) =
      ',' :: '\n' :: (spaces (2*lvl) ++ (Json.dumpsChars lvl v ++ JElems.dumpsTail lvl t))
      from rfl]
    rw [show (JElems.cons v t).nlE = 1 + v.nl + t.nlE from rfl]
    simp [List.count_cons, List.count_append, count_nl_spaces, ih1, ih2]
    omega
end

theorem natToCharsAux_last : ∀ (fuel n : Nat), 0 < fuel →
    ∃ d, (natToCharsAux fuel n).getLast? = some (digitChar d)
  | fuel+1, n, _ => by
    rw [natToCharsAux]
    split
    · exact ⟨n, rfl⟩
    · exact ⟨n % 10, List.getLast?_concat _⟩

/-- The last character `json.dumps` emits is never a newline. -/
theorem dumpsChars_last_spec (lvl : Nat) (v : Json) :
    ∃ c, (Json.dumpsChars lvl v).getLast? = some c ∧ c ≠ '\n' := by
  cases v with
  | null => exact ⟨'l', rfl, by decide⟩
  | bool b =>
    cases b with
    | true => exact ⟨'e', rfl, by decide⟩
    | false => exact ⟨'e', rfl, by decide⟩
  | num n =>
    cases n with
    | ofNat m =>
      obtain ⟨d, hd⟩ := natToCharsAux_last (m+1) m (by omega)
      exact ⟨digitChar d, hd, digitChar_ne_nl d⟩
    | negSucc m =>
      obtain ⟨d, hd⟩ := natToCharsAux_last (m+2) (m+1) (by omega)
      refine ⟨digitChar d, ?_, digitChar_ne_nl d⟩
      show (('-' :: natToCharsAux (m+2) (m+1))).getLast? = some (digitChar d)
      cases hl : natToCharsAux (m+2) (m+1) with
      | nil => exact absurd hl (natToCharsAux_ne_nil (m+2) (m+1) (by omega))
      | cons c2 t2 =>
        rw [List.getLast?_cons_cons]
        rw [hl] at hd
        exact hd
  | str s =>
    refine ⟨'"', ?_, by decide⟩
    rw [show Json.dumpsChars lvl (Json.str s) = ('"' :: escChars s.data) ++ ['"'] from by
      show '"' :: (escChars s.data ++ ['"']) = _
      simp [List.cons_append]]
    exact List.getLast?_concat _
  | arr es =>
    cases es with
    | nil => exact ⟨']', rfl, by decide⟩
    | cons h t =>
      refine ⟨']', ?_, by decide⟩
      rw [show Json.dumpsChars lvl (Json.arr (JElems.cons h t)) =
        ('[' :: '\n' :: (spaces (2*(lvl+1)) ++ (Json.dumpsChars (lvl+1) h ++
          (JElems.dumpsTail (lvl+1) t ++ '\n' :: spaces (2*lvl))))) ++ [']'] from by
            show '[' :: '\n' :: (spaces (2*(lvl+1)) ++ (Json.dumpsChars (lvl+1) h ++
              (JElems.dumpsTail (lvl+1) t ++ '\n' :: (spaces (2*lvl) ++ [']'])))) = _
            simp [List.cons_append, List.append_assoc]]
      exact List.getLast?_concat _
  | obj ms =>
    cases ms with
    | nil => exact ⟨'\x7d', rfl, by decide⟩
    | cons k v t =>
      refine ⟨'\x7d', ?_, by decide⟩
      rw [show Json.dumpsChars lvl (Json.obj (JMembers.cons k v t)) =
        ('\x7b' :: '\n' :: (spaces (2*(lvl+1)) ++ (escString k ++ ':' :: ' ' ::
          (Json.dumpsChars (lvl+1) v ++ (JMembers.dumpsTail (lvl+1) t ++
            '\n' :: spaces (2*lvl)))))) ++ ['\x7d'] from by
            show '\x7b' :: '\n' :: (spaces (2*(lvl+1)) ++ (escString k ++ ':' :: ' ' ::
              (Json.dumpsChars (lvl+1) v ++ (JMembers.dumpsTail (lvl+1) t ++
                '\n' :: (spaces (2*lvl) ++ ['\x7d']))))) = _
            simp [List.cons_append, List.append_assoc]]
      exact List.getLast?_concat _

/-- `len(f.readlines())` on a dumped value: one line per emitted newline, plus
the unterminated last line. -/
theorem lineCount_dumps (v : Json) : lineCount (Json.dumps v) = v.nl + 1 := by
  unfold lineCount Json.dumps
  obtain ⟨c0, t0, hhead, _, _⟩ := dumpsChars_head_spec 0 v
  obtain ⟨c1, hlast, hne⟩ := dumpsChars_last_spec 0 v
  rw [show (String.mk (Json.dumpsChars 0 v)).data = Json.dumpsChars 0 v from rfl]
  rw [if_neg (by rw [hhead]; simp)]
  rw [count_nl_dumps 0 v, hlast,
    if_neg (fun he => hne (by injection he))]

theorem nlE_append : ∀ a b : JElems, (a.append b).nlE = a.nlE + b.nlE
  | .nil, b => by
    rw [JElems.append]
    rw [show JElems.nil.nlE = 0 from rfl]
    omega
  | .cons h t, b => by
    rw [JElems.append]
    rw [show (JElems.cons h (t.append b)).nlE = 1 + h.nl + (t.append b).nlE from rfl,
      show (JElems.cons h t).nlE = 1 + h.nl + t.nlE from rfl, nlE_append t b]
    omega

/-- Appending one element never shrinks the newline count of an array. -/
theorem nl_arr_push (entries : JElems) (e : Json) :
    (Json.arr entries).nl ≤ (Json.arr (entries.push e)).nl := by
  cases entries with
  | nil =>
    show (0 : Nat) ≤ 2 + e.nl + JElems.nil.nlE
    omega
  | cons h t =>
    show 2 + h.nl + t.nlE ≤ 2 + h.nl + (t.append (JElems.cons e JElems.nil)).nlE
    rw [nlE_append]
    have h1 : (JElems.cons e JElems.nil).nlE = 1 + e.nl + JElems.nil.nlE := rfl
    omega

theorem nlM_setKey_ge : ∀ (m : JMembers) (cat : String) (w2 : Json),
    (∀ w, m.lookup cat = some w → w.nl ≤ w2.nl) → m.nlM ≤ (m.setKey cat w2).nlM
  | .nil, cat, w2, _ => by
    rw [JMembers.setKey]
    show (0 : Nat) ≤ 1 + w2.nl + JMembers.nil.nlM
    omega
  | .cons k v t, cat, w2, h => by
    rw [JMembers.setKey]
    by_cases hk : k = cat
    · rw [if_pos hk]
      have hv : v.nl ≤ w2.nl := h v (by rw [JMembers.lookup, if_pos hk])
      show 1 + v.nl + t.nlM ≤ 1 + w2.nl + t.nlM
      omega
    · rw [if_neg hk]
      have ht := nlM_setKey_ge t cat w2 (fun w hw =>
        h w (by rw [JMembers.lookup, if_neg hk]; exact hw))
      show 1 + v.nl + t.nlM ≤ 1 + v.nl + (t.setKey cat w2).nlM
      omega

/-- Replacing one value of a store with one of at least as many newlines, or
adding a key, never shrinks the newline count of the store. -/
theorem nl_obj_setKey_push (store : JMembers) (cat : String) (entries : JElems) (e : Json)
    (h : store.lookup cat = some (.arr entries)) :
    (Json.obj store).nl ≤
      (Json.obj (store.setKey cat (.arr (entries.push e)))).nl := by
  cases store with
  | nil =>
    rw [JMembers.lookup] at h
    cases h
  | cons k v t =>
    rw [JMembers.setKey]
    by_cases hk : k = cat
    · rw [if_pos hk]
      rw [JMembers.lookup, if_pos hk] at h
      injection h with h2
      subst h2
      have hp := nl_arr_push entries e
      show 2 + (Json.arr entries).nl + t.nlM ≤ 2 + (Json.arr (entries.push e)).nl + t.nlM
      omega
    · rw [if_neg hk]
      rw [JMembers.lookup, if_neg hk] at h
      have ht := nlM_setKey_ge t cat (.arr (entries.push e)) (fun w hw => by
        rw [h] at hw
        injection hw with h2
        subst h2
        exact nl_arr_push entries e)
      show 2 + v.nl + t.nlM ≤ 2 + v.nl + (t.setKey cat (.arr (entries.push e))).nlM
      omega

/-! ## C1, C7, C8, C10: the commit path and the sync round-trip -/


theorem lookup_eraseKey_ne : ∀ (m : JMembers) (key k2 : String), k2 ≠ key →
    (m.eraseKey key).lookup k2 = m.lookup k2
  | .nil, _, _, _ => rfl
  | .cons k v t, key, k2, h => by
    rw [JMembers.eraseKey]
    by_cases hk : k = key
    · rw [if_pos hk, JMembers.lookup,
        if_neg (fun he => h (he.symm.trans hk)), lookup_eraseKey_ne t key k2 h]
    · rw [if_neg hk, JMembers.lookup, JMembers.lookup]
      by_cases hk2 : k = k2
      · rw [if_pos hk2, if_pos hk2]
      · rw [if_neg hk2, if_neg hk2, lookup_eraseKey_ne t key k2 h]

/-- The approved-and-clean cycle reaches the commit step: under a non-empty
raw command, a parsable store holding the resolved category, a candidate whose
category is a non-empty string, and a clean duplicate scan, the run returns
exactly what the commit step produces. -/
theorem plc_commit (raw resp content : String) (confirmCreate approve : Bool) (fs : FS)
    (fcm store : JMembers) (entries : JElems) (cat : String)
    (hraw : raw ≠ "")
    (hfile : fs.shortcutsFile = some content)
    (hstore : Json.parse content = some (.obj store))
    (hresp : Json.parse (stripFencedWrapper resp) = some (.obj fcm))
    (hcat : fcm.lookup "category" = some (.str cat))
    (hcatne : cat ≠ "")
    (hentries : store.lookup cat = some (.arr entries))
    (hobj : entries.allObjEntries = true)
    (hnodup : entries.hasCommand ((fcm.lookup "command").getD .null) = false)
    (happrove : approve = true) :
    _process_command_logic raw (some resp) confirmCreate approve fs =
      (.ok (commitCandidate fcm cat store entries fs).1,
       (commitCandidate fcm cat store entries fs).2) := by
  have hck : store.containsKey cat = true := by simp [JMembers.containsKey, hentries]
  unfold _process_command_logic format_command_with_llm jsonLoadFile
  rw [hfile]
  simp only [hstore, hresp, hcat, if_neg hraw]
  simp only [Option.getD_some, Json.truthy, hcatne, hck]
  simp [findDuplicate_spec entries _ hobj, hentries, hnodup, happrove, hck]

/-- When the store file holds the canonical `indent=2` serialization of the
store, the commit step always succeeds: the canonical line count never
shrinks when an entry is appended, and the written text re-parses. -/
theorem commitCandidate_canonical (fcm store : JMembers) (entries : JElems)
    (cat : String) (fs : FS)
    (hfile : fs.shortcutsFile = some (Json.dumps (.obj store)))
    (hentries : store.lookup cat = some (.arr entries)) :
    commitCandidate fcm cat store entries fs =
      (.committed, { fs with shortcutsFile := some (Json.dumps (.obj
        (store.setKey cat (.arr (entries.push (.obj (fcm.eraseKey "category"))))))) }) := by
  have hguard : ¬ (lineCount (Json.dumps (.obj (store.setKey cat (.arr (entries.push
      (.obj (fcm.eraseKey "category"))))))) < lineCount (Json.dumps (.obj store))) := by
    rw [lineCount_dumps, lineCount_dumps]
    have h := nl_obj_setKey_push store cat entries (.obj (fcm.eraseKey "category")) hentries
    omega
  have hval : validate_json (some (Json.dumps (.obj (store.setKey cat (.arr (entries.push
      (.obj (fcm.eraseKey "category")))))))) = true := by
    show (Json.parse (Json.dumps (.obj (store.setKey cat (.arr (entries.push
      (.obj (fcm.eraseKey "category")))))))).isSome = true
    rw [Json.parse_dumps]
    rfl
  unfold commitCandidate update_shortcuts_safely
  rw [hfile]
  rw [show get_line_count (some (Json.dumps (Json.obj store))) =
    lineCount (Json.dumps (Json.obj store)) from rfl]
  rw [if_neg hguard]
  show (if validate_json (some (Json.dumps (.obj (store.setKey cat (.arr (entries.push
      (.obj (fcm.eraseKey "category")))))))) = true then
      ((Outcome.committed : Outcome), { fs with shortcutsFile := some (Json.dumps (.obj
        (store.setKey cat (.arr (entries.push (.obj (fcm.eraseKey "category"))))))) })
    else (Outcome.postWriteCorruption, { fs with shortcutsFile := some (Json.dumps (.obj
      (store.setKey cat (.arr (entries.push (.obj (fcm.eraseKey "category"))))))) })) = _
  rw [if_pos hval]

def gitStoreVal : JMembers :=
  .cons "GIT" (.arr (.cons (.obj (.cons "command" (.str "git status") .nil)) .nil)) .nil

def gitLogCand : JMembers :=
  .cons "category" (.str "GIT") (.cons "command" (.str "git log") .nil)

def gitCandidateLogText : String := "\x7b\"category\": \"GIT\", \"command\": \"git log\"\x7d"

def gitCandidateLowerText : String := "\x7b\"category\": \"git\", \"command\": \"git log\"\x7d"

def gitCandidateNoCmdText : String := "\x7b\"category\": \"GIT\", \"description\": \"show history\"\x7d"

def gitStorePaddedText : String := gitStoreText ++ "\n\n\n\n\n"

/-- C1 (amended).  For a cycle whose raw input is non-empty, whose store file
holds the canonical `indent=2` serialization of a well-formed store, whose
formatter output parses to a candidate object with a known non-empty category,
whose duplicate scan over that category's (all-object) entries is clean, and
which the user approves: the run commits, the store file afterwards holds the
serialization of the store with exactly one entry — the candidate minus its
`category` key — appended at the end of that category's list, every other
category's list is unchanged, and the post-commit line count is at least the
pre-commit line count.  (The canonical-serialization hypothesis is needed: on
a value-equal but longer rendering of the same store the write guard refuses,
see the counterexample.) -/
theorem ingestion_appends_single_entry (raw resp : String) (confirmCreate approve : Bool)
    (fs : FS) (fcm store : JMembers) (entries : JElems) (cat : String)
    (hraw : raw ≠ "")
    (hfile : fs.shortcutsFile = some (Json.dumps (.obj store)))
    (hwf : Json.wfb (.obj store) = true)
    (hresp : Json.parse (stripFencedWrapper resp) = some (.obj fcm))
    (hcat : fcm.lookup "category" = some (.str cat))
    (hcatne : cat ≠ "")
    (hentries : store.lookup cat = some (.arr entries))
    (hobj : entries.allObjEntries = true)
    (hnodup : entries.hasCommand ((fcm.lookup "command").getD .null) = false)
    (happrove : approve = true) :
    _process_command_logic raw (some resp) confirmCreate approve fs =
      (.ok .committed, { fs with shortcutsFile := some (Json.dumps (.obj
        (store.setKey cat (.arr (entries.push (.obj (fcm.eraseKey "category"))))))) }) ∧
    (store.setKey cat (.arr (entries.push (.obj (fcm.eraseKey "category"))))).lookup cat =
      some (.arr (entries.push (.obj (fcm.eraseKey "category")))) ∧
    (∀ k2, k2 ≠ cat →
      (store.setKey cat (.arr (entries.push (.obj (fcm.eraseKey "category"))))).lookup k2 =
        store.lookup k2) ∧
    get_line_count fs.shortcutsFile ≤
      get_line_count (some (Json.dumps (.obj (store.setKey cat
        (.arr (entries.push (.obj (fcm.eraseKey "category")))))))) := by
  refine ⟨?_, ?_, ?_, ?_⟩
  · rw [plc_commit raw resp (Json.dumps (.obj store)) confirmCreate approve fs fcm store
      entries cat hraw hfile (Json.parse_dumps_of_wfb _ hwf) hresp hcat hcatne hentries
      hobj hnodup happrove]
    rw [commitCandidate_canonical fcm store entries cat fs hfile hentries]
  · rw [lookup_setKey, if_pos rfl]
  · intro k2 hk2
    rw [lookup_setKey, if_neg hk2]
  · rw [hfile]
    rw [show get_line_count (some (Json.dumps (Json.obj store))) =
      lineCount (Json.dumps (Json.obj store)) from rfl]
    rw [show get_line_count (some (Json.dumps (Json.obj (store.setKey cat
      (.arr (entries.push (.obj (fcm.eraseKey "category")))))))) =
      lineCount (Json.dumps (Json.obj (store.setKey cat
        (.arr (entries.push (.obj (fcm.eraseKey "category"))))))) from rfl]
    rw [lineCount_dumps, lineCount_dumps]
    have h := nl_obj_setKey_push store cat entries (.obj (fcm.eraseKey "category")) hentries
    omega

theorem ingestion_appends_single_entry_witness :
    _process_command_logic "git log" (some gitCandidateLogText) false true
        ⟨some (Json.dumps (.obj gitStoreVal)), some ""⟩ =
      (.ok .committed, ⟨some (Json.dumps (.obj
        (gitStoreVal.setKey "GIT" (.arr ((JElems.cons (.obj (.cons "command"
          (.str "git status") .nil)) .nil).push
            (.obj (gitLogCand.eraseKey "category"))))))), some ""⟩) ∧
    (gitStoreVal.setKey "GIT" (.arr ((JElems.cons (.obj (.cons "command"
      (.str "git status") .nil)) .nil).push (.obj (gitLogCand.eraseKey "category"))))).lookup
        "GIT" = some (.arr ((JElems.cons (.obj (.cons "command" (.str "git status") .nil))
          .nil).push (.obj (gitLogCand.eraseKey "category")))) ∧
    (∀ k2, k2 ≠ "GIT" →
      (gitStoreVal.setKey "GIT" (.arr ((JElems.cons (.obj (.cons "command"
        (.str "git status") .nil)) .nil).push
          (.obj (gitLogCand.eraseKey "category"))))).lookup k2 = gitStoreVal.lookup k2) ∧
    get_line_count (⟨some (Json.dumps (.obj gitStoreVal)), some ""⟩ : FS).shortcutsFile ≤
      get_line_count (some (Json.dumps (.obj (gitStoreVal.setKey "GIT"
        (.arr ((JElems.cons (.obj (.cons "command" (.str "git status") .nil)) .nil).push
          (.obj (gitLogCand.eraseKey "category")))))))) :=
  ingestion_appends_single_entry "git log" gitCandidateLogText false true
    ⟨some (Json.dumps (.obj gitStoreVal)), some ""⟩ gitLogCand gitStoreVal
    (.cons (.obj (.cons "command" (.str "git status") .nil)) .nil) "GIT"
    (by decide) rfl (by decide) (by decide) (by decide) (by decide) (by decide)
    (by decide) (by decide) (by decide)

/-- C1 counterexample.  The same store value rendered with five extra blank
lines (still parsing to the same store) makes the original claim fail: all of
the claim's hypotheses hold — non-empty input, parsable formatter output with
a known category, clean duplicate check, approval — yet the cycle ends in
`writeGuardViolation` with the store file untouched and nothing appended,
because the canonical re-serialization has fewer lines than the padded file. -/
theorem ingestion_write_guard_counterexample :
    Json.parse gitStorePaddedText = some (.obj gitStoreVal) ∧
    _process_command_logic "git log" (some gitCandidateLogText) false true
        ⟨some gitStorePaddedText, some ""⟩ =
      (.ok .writeGuardViolation, ⟨some gitStorePaddedText, some ""⟩) :=
  ⟨by decide, by decide⟩

/-- C7 (amended).  For a remote record that is a well-formed JSON document and
truthy under Python truthiness (not `null`, `false`, `0`, `""`, `[]` or `{}`):
a pull writes its `indent=2` serialization to the local store file, and the
immediately following push parses that file and uploads a value equal to the
original record, so the remote record round-trips.  A present but falsy
record — the empty object, a legitimate empty store, in particular — is not
written by the pull, and the push re-uploads whatever the local file held
before (or nothing), so the round-trip fails for it, see the counterexample. -/
theorem pull_push_round_trip (fs : FS) (record : Json)
    (hwf : Json.wfb record = true) (ht : record.truthy = true) :
    pullThenPush fs record = some record := by
  unfold pullThenPush sync_cloud_to_local
  show sync_local_to_cloud
    (if ((((JMembers.cons "record" record JMembers.nil).lookup "record").getD .null).truthy)
      then { fs with shortcutsFile := some (Json.dumps
        (((JMembers.cons "record" record JMembers.nil).lookup "record").getD .null)) }
      else fs) = some record
  rw [show ((JMembers.cons "record" record JMembers.nil).lookup "record").getD .null = record
    from by rw [JMembers.lookup, if_pos rfl]; rfl]
  rw [ht]
  show sync_local_to_cloud { fs with shortcutsFile := some (Json.dumps record) } = some record
  unfold sync_local_to_cloud
  show Json.parse (Json.dumps record) = some record
  exact Json.parse_dumps_of_wfb record hwf

theorem pull_push_round_trip_witness :
    pullThenPush ⟨none, none⟩ (.obj (.cons "GIT" (.arr .nil) .nil)) =
      some (.obj (.cons "GIT" (.arr .nil) .nil)) :=
  pull_push_round_trip ⟨none, none⟩ (.obj (.cons "GIT" (.arr .nil) .nil))
    (by decide) (by decide)

/-- C7 counterexample.  The empty object is a JSON document, but `if cloud_data:`
treats it as absent: pulling `{"record": {}}` over a local file holding the
one-entry GIT store leaves the file untouched, and the push re-uploads the old
store — the remote record after the round-trip is the old store, not `{}`. -/
theorem pull_push_empty_record_counterexample :
    pullThenPush ⟨some gitStoreText, some ""⟩ (.obj .nil) = some (.obj gitStoreVal) ∧
    some (Json.obj gitStoreVal) ≠ some (.obj .nil) :=
  ⟨by decide, by decide⟩

theorem setKey_setKey : ∀ (m : JMembers) (k : String) (v w : Json),
    (m.setKey k v).setKey k w = m.setKey k w
  | .nil, k, v, w => by
    rw [JMembers.setKey, JMembers.setKey, JMembers.setKey, if_pos rfl]
  | .cons k2 u t, k, v, w => by
    by_cases hk : k2 = k
    · rw [JMembers.setKey, if_pos hk, JMembers.setKey, if_pos hk,
        JMembers.setKey, if_pos hk]
    · rw [JMembers.setKey, if_neg hk, JMembers.setKey, if_neg hk,
        JMembers.setKey, if_neg hk, setKey_setKey t k v w]

theorem lookup_none_of_not_contains (m : JMembers) (k : String)
    (h : m.containsKey k = false) : m.lookup k = none := by
  cases hl : m.lookup k with
  | none => rfl
  | some w =>
    rw [JMembers.containsKey, hl] at h
    cases h

/-- Writing any value at any key — replacing an existing value with one of at
least as many newlines, or adding a fresh key — never shrinks the newline
count of the store. -/
theorem nl_obj_setKey_ge (store : JMembers) (cat : String) (w2 : Json)
    (h : ∀ w, store.lookup cat = some w → w.nl ≤ w2.nl) :
    (Json.obj store).nl ≤ (Json.obj (store.setKey cat w2)).nl := by
  cases store with
  | nil =>
    rw [JMembers.setKey]
    show (0 : Nat) ≤ 2 + w2.nl + JMembers.nil.nlM
    omega
  | cons k v t =>
    rw [JMembers.setKey]
    by_cases hk : k = cat
    · rw [if_pos hk]
      have hv : v.nl ≤ w2.nl := h v (by rw [JMembers.lookup, if_pos hk])
      show 2 + v.nl + t.nlM ≤ 2 + w2.nl + t.nlM
      omega
    · rw [if_neg hk]
      have ht := nlM_setKey_ge t cat w2 (fun w hw =>
        h w (by rw [JMembers.lookup, if_neg hk]; exact hw))
      show 2 + v.nl + t.nlM ≤ 2 + v.nl + (t.setKey cat w2).nlM
      omega

/-- The commit step succeeds whenever the file holds a canonical serialization
whose newline count the new store does not undercut — `commitCandidate_canonical`
generalized to a write base `store2` that may differ from the on-disk store
(the category-creation path writes `store` extended by the fresh empty
category). -/
theorem commitCandidate_canonical_of_nl (fcm store2 : JMembers) (entries : JElems)
    (cat : String) (fs : FS) (oldStore : JMembers)
    (hfile : fs.shortcutsFile = some (Json.dumps (.obj oldStore)))
    (hmono : (Json.obj oldStore).nl ≤ (Json.obj (store2.setKey cat (.arr (entries.push
      (.obj (fcm.eraseKey "category")))))).nl) :
    commitCandidate fcm cat store2 entries fs =
      (.committed, { fs with shortcutsFile := some (Json.dumps (.obj
        (store2.setKey cat (.arr (entries.push (.obj (fcm.eraseKey "category"))))))) }) := by
  have hguard : ¬ (lineCount (Json.dumps (.obj (store2.setKey cat (.arr (entries.push
      (.obj (fcm.eraseKey "category"))))))) < lineCount (Json.dumps (.obj oldStore))) := by
    rw [lineCount_dumps, lineCount_dumps]
    omega
  have hval : validate_json (some (Json.dumps (.obj (store2.setKey cat (.arr (entries.push
      (.obj (fcm.eraseKey "category")))))))) = true := by
    show (Json.parse (Json.dumps (.obj (store2.setKey cat (.arr (entries.push
      (.obj (fcm.eraseKey "category")))))))).isSome = true
    rw [Json.parse_dumps]
    rfl
  unfold commitCandidate update_shortcuts_safely
  rw [hfile]
  rw [show get_line_count (some (Json.dumps (Json.obj oldStore))) =
    lineCount (Json.dumps (Json.obj oldStore)) from rfl]
  rw [if_neg hguard]
  show (if validate_json (some (Json.dumps (.obj (store2.setKey cat (.arr (entries.push
      (.obj (fcm.eraseKey "category")))))))) = true then
      ((Outcome.committed : Outcome), { fs with shortcutsFile := some (Json.dumps (.obj
        (store2.setKey cat (.arr (entries.push (.obj (fcm.eraseKey "category"))))))) })
    else (Outcome.postWriteCorruption, { fs with shortcutsFile := some (Json.dumps (.obj
      (store2.setKey cat (.arr (entries.push (.obj (fcm.eraseKey "category"))))))) })) = _
  rw [if_pos hval]

/-- The approved cycle on a category *not* yet in the store, with the creation
confirmed: the run reaches the commit step with the write base `store` extended
by the fresh empty category and an empty entry list (the duplicate scan over
it is vacuously clean). -/
theorem plc_commit_new (raw resp content : String) (confirmCreate approve : Bool) (fs : FS)
    (fcm store : JMembers) (cat : String)
    (hraw : raw ≠ "")
    (hfile : fs.shortcutsFile = some content)
    (hstore : Json.parse content = some (.obj store))
    (hresp : Json.parse (stripFencedWrapper resp) = some (.obj fcm))
    (hcat : fcm.lookup "category" = some (.str cat))
    (hcatne : cat ≠ "")
    (hck : store.containsKey cat = false)
    (hcc : confirmCreate = true)
    (happrove : approve = true) :
    _process_command_logic raw (some resp) confirmCreate approve fs =
      (.ok (commitCandidate fcm cat (store.setKey cat (.arr .nil)) .nil fs).1,
       (commitCandidate fcm cat (store.setKey cat (.arr .nil)) .nil fs).2) := by
  have hck2 : (store.setKey cat (.arr .nil)).containsKey cat = true := by
    rw [containsKey_setKey, if_pos rfl]
  have hlk : (store.setKey cat (.arr .nil)).lookup cat = some (.arr .nil) := by
    rw [lookup_setKey, if_pos rfl]
  unfold _process_command_logic format_command_with_llm jsonLoadFile
  rw [hfile]
  simp only [hstore, hresp, hcat, if_neg hraw]
  simp only [Option.getD_some, Json.truthy, hcatne, hck, hcc]
  simp [hck, hck2, hlk, findDuplicate, happrove]

/-- C8 (corrected).  The ingestion workflow performs no case normalization on
category keys: a committed cycle — whether the candidate's category already
exists in the store or is created through the confirmation path — stores the
appended entry under exactly the candidate's category string `cat`, whatever
its case: the store file ends up holding the serialization of the write base
(`store`, extended by the fresh empty category when `cat` was absent) with the
entry list written at key `cat` itself, and that key is present verbatim.
(The claim's upper-casing does not exist in the code; see the counterexample,
where a lower-case `"git"` category is created and stored in lower case.) -/
theorem category_key_stored_verbatim (raw resp : String) (confirmCreate approve : Bool)
    (fs : FS) (fcm store : JMembers) (entries : JElems) (cat : String)
    (hraw : raw ≠ "")
    (hfile : fs.shortcutsFile = some (Json.dumps (.obj store)))
    (hwf : Json.wfb (.obj store) = true)
    (hresp : Json.parse (stripFencedWrapper resp) = some (.obj fcm))
    (hcat : fcm.lookup "category" = some (.str cat))
    (hcatne : cat ≠ "")
    (hcreate : store.containsKey cat = false → confirmCreate = true)
    (hentries : (if store.containsKey cat then store
        else store.setKey cat (.arr .nil)).lookup cat = some (.arr entries))
    (hobj : entries.allObjEntries = true)
    (hnodup : entries.hasCommand ((fcm.lookup "command").getD .null) = false)
    (happrove : approve = true) :
    _process_command_logic raw (some resp) confirmCreate approve fs =
      (.ok .committed, { fs with shortcutsFile := some (Json.dumps (.obj
        ((if store.containsKey cat then store
          else store.setKey cat (.arr .nil)).setKey cat
            (.arr (entries.push (.obj (fcm.eraseKey "category"))))))) }) ∧
    ((if store.containsKey cat then store
      else store.setKey cat (.arr .nil)).setKey cat
        (.arr (entries.push (.obj (fcm.eraseKey "category"))))).containsKey cat = true := by
  refine ⟨?_, by rw [containsKey_setKey, if_pos rfl]⟩
  cases hck : store.containsKey cat with
  | true =>
    rw [if_pos hck] at hentries
    rw [if_pos (rfl : (true : Bool) = true)]
    rw [plc_commit raw resp (Json.dumps (.obj store)) confirmCreate approve fs fcm store
      entries cat hraw hfile (Json.parse_dumps_of_wfb _ hwf) hresp hcat hcatne hentries
      hobj hnodup happrove]
    rw [commitCandidate_canonical fcm store entries cat fs hfile hentries]
  | false =>
    have hcc := hcreate hck
    have hckf : ¬ (store.containsKey cat = true) := by
      rw [hck]
      exact fun he => nomatch he
    rw [if_neg hckf] at hentries
    rw [if_neg (by decide : ¬ (false : Bool) = true)]
    rw [lookup_setKey, if_pos rfl] at hentries
    injection hentries with h1
    injection h1 with h2
    subst h2
    rw [plc_commit_new raw resp (Json.dumps (.obj store)) confirmCreate approve fs fcm store
      cat hraw hfile (Json.parse_dumps_of_wfb _ hwf) hresp hcat hcatne hck hcc happrove]
    rw [commitCandidate_canonical_of_nl fcm (store.setKey cat (.arr .nil)) .nil cat fs store
      hfile ?_]
    rw [setKey_setKey]
    apply nl_obj_setKey_ge
    intro w hw
    rw [lookup_none_of_not_contains store cat hck] at hw
    cases hw

def gitLowerStoreVal : JMembers := .cons "git" (.arr .nil) .nil

def gitLowerCand : JMembers :=
  .cons "category" (.str "git") (.cons "command" (.str "git log") .nil)

theorem category_key_stored_verbatim_witness :
    _process_command_logic "git log" (some gitCandidateLowerText) true true
        ⟨some (Json.dumps (.obj .nil)), some ""⟩ =
      (.ok .committed, ⟨some (Json.dumps (.obj
        ((if JMembers.nil.containsKey "git" then JMembers.nil
          else JMembers.nil.setKey "git" (.arr .nil)).setKey "git"
            (.arr (JElems.nil.push (.obj (gitLowerCand.eraseKey "category"))))))), some ""⟩) ∧
    ((if JMembers.nil.containsKey "git" then JMembers.nil
      else JMembers.nil.setKey "git" (.arr .nil)).setKey "git"
        (.arr (JElems.nil.push (.obj (gitLowerCand.eraseKey "category"))))).containsKey
      "git" = true :=
  category_key_stored_verbatim "git log" gitCandidateLowerText true true
    ⟨some (Json.dumps (.obj .nil)), some ""⟩ gitLowerCand .nil JElems.nil "git"
    (by decide) rfl (by decide) (by decide) (by decide) (by decide) (by decide)
    (by decide) (by decide) (by decide) (by decide)

/-- C8 counterexample.  Creating a category through the confirmation path also
stores it verbatim: on an empty store, a candidate with category `"git"` and
both confirmations ends committed with the entry stored under `"git"`; the
upper-cased key `"GIT"` is nowhere in the result, although the claim requires
category keys to be case-normalized to upper case. -/
theorem category_key_lowercase_counterexample :
    _process_command_logic "git log" (some gitCandidateLowerText) true true
        ⟨some "\x7b\x7d", some ""⟩ =
      (.ok .committed, ⟨some (Json.dumps (.obj (.cons "git" (.arr (.cons
        (.obj (.cons "command" (.str "git log") .nil)) .nil)) .nil))), some ""⟩) ∧
    (JMembers.cons "git" (.arr (.cons (.obj (.cons "command" (.str "git log") .nil)) .nil))
      .nil).containsKey "GIT" = false :=
  ⟨by decide, by decide⟩

/-- C10.  Only the `category` field of the candidate is validated: a candidate
with no `command` key at all still reaches the duplicate scan — where its
missing `command` reads as `null` via `.get` — and, once approved, is
committed as-is: the stored entry is the candidate minus its `category` key
and in particular still has no `command` field. -/
theorem only_category_validated (raw resp : String) (confirmCreate approve : Bool)
    (fs : FS) (fcm store : JMembers) (entries : JElems) (cat : String)
    (hraw : raw ≠ "")
    (hfile : fs.shortcutsFile = some (Json.dumps (.obj store)))
    (hwf : Json.wfb (.obj store) = true)
    (hresp : Json.parse (stripFencedWrapper resp) = some (.obj fcm))
    (hcat : fcm.lookup "category" = some (.str cat))
    (hcatne : cat ≠ "")
    (hnocmd : fcm.lookup "command" = none)
    (hentries : store.lookup cat = some (.arr entries))
    (hobj : entries.allObjEntries = true)
    (hnodup : entries.hasCommand .null = false)
    (happrove : approve = true) :
    _process_command_logic raw (some resp) confirmCreate approve fs =
      (.ok .committed, { fs with shortcutsFile := some (Json.dumps (.obj
        (store.setKey cat (.arr (entries.push (.obj (fcm.eraseKey "category"))))))) }) ∧
    (fcm.eraseKey "category").lookup "command" = none := by
  constructor
  · rw [plc_commit raw resp (Json.dumps (.obj store)) confirmCreate approve fs fcm store
      entries cat hraw hfile (Json.parse_dumps_of_wfb _ hwf) hresp hcat hcatne hentries
      hobj (by rw [hnocmd]; exact hnodup) happrove]
    rw [commitCandidate_canonical fcm store entries cat fs hfile hentries]
  · rw [lookup_eraseKey_ne fcm "category" "command" (by decide)]
    exact hnocmd

def gitNoCmdCand : JMembers :=
  .cons "category" (.str "GIT") (.cons "description" (.str "show history") .nil)

theorem only_category_validated_witness :
    _process_command_logic "show history" (some gitCandidateNoCmdText) false true
        ⟨some (Json.dumps (.obj gitStoreVal)), some ""⟩ =
      (.ok .committed, ⟨some (Json.dumps (.obj
        (gitStoreVal.setKey "GIT" (.arr ((JElems.cons (.obj (.cons "command"
          (.str "git status") .nil)) .nil).push
            (.obj (gitNoCmdCand.eraseKey "category"))))))), some ""⟩) ∧
    (gitNoCmdCand.eraseKey "category").lookup "command" = none :=
  only_category_validated "show history" gitCandidateNoCmdText false true
    ⟨some (Json.dumps (.obj gitStoreVal)), some ""⟩ gitNoCmdCand gitStoreVal
    (.cons (.obj (.cons "command" (.str "git status") .nil)) .nil) "GIT"
    (by decide) rfl (by decide) (by decide) (by decide) (by decide) (by decide)
    (by decide) (by decide) (by decide) (by decide)
